import Mathlib

/-!
Shallow embedding of the spectral-ops audio hybridization engine.

Sources embedded here:
* `AudioProcessor` (src/unnamed/part_000): Hann window, radix-2 FFT / inverse FFT,
  forward analysis (performFFT / performSTFT), phase combination, the processing
  pipeline, and overlap-add resynthesis.
* `FFTOperations` (src/operations.js): the ten magnitude operators and the
  string-dispatched `apply` entry point.

JavaScript floating-point numbers are idealized as real numbers `ℝ`, and the
complex pairs of parallel Float32Arrays `(real, imag)` as lists of `ℂ`.
Integer quantities that the source computes with `Math.floor` / `Math.ceil`
on floats are modelled with exact rational arithmetic and `Int.floor` /
`Int.ceil`.  Out-of-bounds typed-array reads (which yield junk but never
throw in JS for even sizes) are modelled by `List.getD _ _ 0`; out-of-bounds
writes (silently ignored in JS) by `List.set`, which is a no-op out of range.
-/

namespace AudioProcessor

/-- Hop size, from `performSTFT` / `resynthesize`:
`const hopSize = Math.floor(windowSize * (1 - overlapPercent / 100));`.
For `overlapPercent > 100` the JS value would be negative; `Int.toNat` maps
that to `0`, and every claim below restricts to hop size `≥ 1`. -/
def hopSize (windowSize overlapPercent : ℕ) : ℕ :=
  (⌊(windowSize : ℚ) * (1 - (overlapPercent : ℚ) / 100)⌋).toNat

/-- Target output frame count, from `process`:
`timeMatch ? Math.ceil((framesA.length + framesB.length) / 2)
           : Math.min(framesA.length, framesB.length)`. -/
def targetFrames (timeMatch : Bool) (lenA lenB : ℕ) : ℕ :=
  if timeMatch then (⌈((lenA : ℚ) + (lenB : ℚ)) / 2⌉).toNat
  else min lenA lenB

/-- Source frame index for output index `i`, from the frame loop of `process`:
`timeMatch ? Math.min(Math.floor(i * frames.length / targetFrames), frames.length - 1) : i`.
All quantities are nonnegative in every reachable call, so `ℕ` subtraction and
`Int.toNat` agree with the JS arithmetic there. -/
def frameIndex (timeMatch : Bool) (i len target : ℕ) : ℕ :=
  if timeMatch then min ((⌊((i : ℚ) * (len : ℚ)) / (target : ℚ)⌋).toNat) (len - 1)
  else i

/-- The inner `while (k > 0 && k <= j) { j -= k; k >>= 1; } j += k;` of the
bit-reversal permutation in `fft` (the reverse-carry increment of `j`). -/
def revCarry (j k : ℕ) : ℕ :=
  if 0 < k ∧ k ≤ j then revCarry (j - k) (k / 2) else j + k
termination_by k
decreasing_by exact Nat.div_lt_self (by omega) (by omega)

/-- Reversal of the low `K` bits of a natural number (specification device for
the bit-reversal permutation; not itself part of the source). -/
def bitRev : ℕ → ℕ → ℕ
  | 0, _ => 0
  | K + 1, i => i % 2 * 2 ^ K + bitRev K (i / 2)

/-- `getHannWindow(size)`: `window[i] = 0.5 * (1 - Math.cos(2 * Math.PI * i / size))`. -/
noncomputable def getHannWindow (size : ℕ) : List ℝ :=
  (List.range size).map fun i : ℕ =>
    0.5 * (1 - Real.cos (2 * Real.pi * (i : ℝ) / (size : ℝ)))

/-- The bit-reversal permutation pass of `fft`: a `for` loop over `i` threading
the reversed counter `j`, swapping `real/imag[i]` with `real/imag[j]` when
`i < j`.  The two parallel Float32Arrays are one list of `ℂ`. -/
noncomputable def bitReverse (a : List ℂ) : List ℂ :=
  let n := a.length
  ((List.range n).foldl (fun (s : List ℂ × ℕ) i =>
    let arr := s.1
    let j := s.2
    -- `if (i < j) { swap real[i],real[j]; swap imag[i],imag[j] }`
    let arr := if i < j then (arr.set i (arr.getD j 0)).set j (arr.getD i 0) else arr
    -- `let k = n >> 1; while (k > 0 && k <= j) {...} j += k;`
    (arr, revCarry j (n / 2))) (a, 0)).1

/-- The innermost butterfly loop of `fft` for one block starting at `i` of
length `len`, threading the twiddle `w` (initialized `wReal = 1, wImag = 0`):

    const tReal = real[v]*wReal - imag[v]*wImag;   -- t = a[v] * w
    const tImag = real[v]*wImag + imag[v]*wReal;
    real[v] = real[u] - tReal; imag[v] = imag[u] - tImag;
    real[u] += tReal;          imag[u] += tImag;
    (w updated by the rotation recurrence w := w * wlen)
-/
noncomputable def butterflyInner (len i : ℕ) (wlen : ℂ) (a : List ℂ) : List ℂ :=
  ((List.range (len / 2)).foldl (fun (s : List ℂ × ℂ) j =>
    let arr := s.1
    let w := s.2
    let u := i + j
    let v := u + len / 2
    let t := arr.getD v 0 * w
    ((arr.set v (arr.getD u 0 - t)).set u (arr.getD u 0 + t), w * wlen)) (a, 1)).1

/-- The per-stage twiddle base of `fft`:
`const angle = -2 * Math.PI / len;
 const wlenReal = Math.cos(angle); const wlenImag = Math.sin(angle);`. -/
noncomputable def stageW (len : ℕ) : ℂ :=
  ⟨Real.cos (-2 * Real.pi / (len : ℝ)), Real.sin (-2 * Real.pi / (len : ℝ))⟩

/-- One butterfly stage of `fft`: the block loop
`for (let i = 0; i < n; i += len)`, indexed here by `q < ⌈n / len⌉` with
`i = q * len` (the same sequence of block starts). -/
noncomputable def stageFold (n len : ℕ) (wlen : ℂ) (a : List ℂ) : List ℂ :=
  (List.range ((n + len - 1) / len)).foldl
    (fun arr q => butterflyInner len (q * len) wlen arr) a

/-- `fft(real, imag)`: Cooley-Tukey radix-2 decimation-in-time FFT, in place.
The stage loop `for (len = 2; len <= n; len <<= 1)` is indexed here by
`s < Nat.log 2 n` with `len = 2^(s+1)` (the same sequence of values).
`if (n <= 1) return;` is the early exit. -/
noncomputable def fft (a : List ℂ) : List ℂ :=
  let n := a.length
  if n ≤ 1 then a
  else
    (List.range (Nat.log 2 n)).foldl (fun arr s =>
      stageFold n (2 ^ (s + 1)) (stageW (2 ^ (s + 1))) arr)
      (bitReverse a)

/-- The discrete Fourier transform root `exp(-2πi/n)` (specification device,
not part of the source). -/
noncomputable def dftRoot (n : ℕ) : ℂ := Complex.exp (-(2 * Real.pi * Complex.I) / n)

/-- The discrete Fourier transform (specification device, not part of the
source): entry `k` is `∑ j < n, a_j · exp(-2πi·jk/n)`. -/
noncomputable def dft (a : List ℂ) : List ℂ :=
  (List.range a.length).map fun k =>
    ∑ j ∈ Finset.range a.length, a.getD j 0 * dftRoot a.length ^ (j * k)

/-- The loop body of the bit-reversal pass, as a named function (definitionally
equal to the inline lambda of `bitReverse`; proof device). -/
noncomputable def bitRevSwapStep (k : ℕ) (s : List ℂ × ℕ) (i : ℕ) : List ℂ × ℕ :=
  (if i < s.2 then (s.1.set i (s.1.getD s.2 0)).set s.2 (s.1.getD i 0) else s.1,
   revCarry s.2 k)

/-- The loop body of the inner butterfly loop, as a named function
(definitionally equal to the inline lambda of `butterflyInner`; proof
device). -/
noncomputable def butterflyStep (len i : ℕ) (wlen : ℂ) (s : List ℂ × ℂ) (j : ℕ) :
    List ℂ × ℂ :=
  ((s.1.set (i + j + len / 2)
      (s.1.getD (i + j) 0 - s.1.getD (i + j + len / 2) 0 * s.2)).set (i + j)
      (s.1.getD (i + j) 0 + s.1.getD (i + j + len / 2) 0 * s.2),
   s.2 * wlen)

/-- `ifft(real, imag)`: conjugate, forward FFT, then
`real[i] /= n; imag[i] = -imag[i] / n` (i.e. conjugate and scale by `1/n`). -/
noncomputable def ifft (a : List ℂ) : List ℂ :=
  let n := a.length
  let b := fft (a.map fun z => (starRingEnd ℂ) z)
  b.map fun z => (starRingEnd ℂ) z / n

/-- `Math.atan2(y, x)`, idealized as the complex argument of `x + y*I`
(value in `(-π, π]`, and `atan2 0 0 = 0` as in JS). -/
noncomputable def atan2 (y x : ℝ) : ℝ := Complex.arg ⟨x, y⟩

/-- The record returned by `performFFT`: `{ magnitude, phase, real, imag }`. -/
structure FFTFrame where
  magnitude : List ℝ
  phase : List ℝ
  real : List ℝ
  imag : List ℝ
deriving Inhabited

/-- An output frame of the processing loop: `{ magnitude, phase }`. -/
structure OutputFrame where
  magnitude : List ℝ
  phase : List ℝ
deriving Inhabited

/-- `performFFT(signal)`: run `fft` on the signal (imaginary part zero), then
for the first `size/2` bins `magnitude[i] = Math.sqrt(real[i]² + imag[i]²)`
and `phase[i] = Math.atan2(imag[i], real[i])`. -/
noncomputable def performFFT (signal : List ℝ) : FFTFrame :=
  let size := signal.length
  let z := fft (signal.map fun x => (⟨x, 0⟩ : ℂ))
  let halfSize := size / 2
  { magnitude := (List.range halfSize).map fun i =>
      Real.sqrt ((z.getD i 0).re * (z.getD i 0).re + (z.getD i 0).im * (z.getD i 0).im)
    phase := (List.range halfSize).map fun i => atan2 (z.getD i 0).im (z.getD i 0).re
    real := z.map Complex.re
    imag := z.map Complex.im }

/-- `performIFFT(magnitude, phase)`: rebuild the complex spectrum
(`real[i] = mag[i]·cos(phase[i])`, `imag[i] = mag[i]·sin(phase[i])` for
`i < magnitude.length`, zeros elsewhere), mirror the negative frequencies
(`for (i = 1; i < magnitude.length; i++) { real[size-i] = real[i];
imag[size-i] = -imag[i]; }`), run `ifft`, and return the real part scaled
by 2 (`real[i] *= 2`). -/
noncomputable def performIFFT (magnitude phase : List ℝ) : List ℝ :=
  let size := magnitude.length * 2
  let base : List ℂ := (List.range size).map fun i =>
    if i < magnitude.length then
      ⟨magnitude.getD i 0 * Real.cos (phase.getD i 0),
       magnitude.getD i 0 * Real.sin (phase.getD i 0)⟩
    else 0
  let z := (List.range' 1 (magnitude.length - 1)).foldl (fun z i =>
    z.set (size - i) ⟨(z.getD i 0).re, -(z.getD i 0).im⟩) base
  (ifft z).map fun w => w.re * 2

/-- The frame loop of `performSTFT`:
`for (let i = 0; i + windowSize <= channelData.length; i += hopSize)`,
windowing each frame (`frame[j] = channelData[i + j] * window[j]`) and
running `performFFT` on it.  Requires `hopSize > 0` for termination (the JS
loop does not terminate when the hop is zero). -/
noncomputable def stftLoop (signal : List ℝ) (windowSize hop : ℕ) (hh : 0 < hop)
    (window : List ℝ) (i : ℕ) : List FFTFrame :=
  if i + windowSize ≤ signal.length then
    performFFT ((List.range windowSize).map fun j =>
      signal.getD (i + j) 0 * window.getD j 0) ::
      stftLoop signal windowSize hop hh window (i + hop)
  else []
termination_by signal.length + 1 - i
decreasing_by omega

/-- `performSTFT(buffer, windowSize, overlapPercent)`.  The zero-hop guard
models the non-termination of the JS loop when `hopSize ≤ 0` (overlap ≥ 100):
no frame list is ever produced in that case. -/
noncomputable def performSTFT (signal : List ℝ) (windowSize overlapPercent : ℕ) :
    List FFTFrame :=
  if h : 0 < hopSize windowSize overlapPercent then
    stftLoop signal windowSize (hopSize windowSize overlapPercent) h
      (getHannWindow windowSize) 0
  else []

/-- `combinePhases(phaseA, phaseB, magA, magB, mode)`: `switch (mode)` with
cases `'a'`, `'b'`, `'average'` and a default returning `phaseA`. -/
noncomputable def combinePhases (phaseA phaseB magA magB : List ℝ) (mode : String) :
    List ℝ :=
  match mode with
  | "a" => phaseA
  | "b" => phaseB
  | "average" =>
    (List.range phaseA.length).map fun i =>
      let totalMag := magA.getD i 0 + magB.getD i 0
      if 0 < totalMag then
        phaseA.getD i 0 * (magA.getD i 0 / totalMag) +
          phaseB.getD i 0 * (magB.getD i 0 / totalMag)
      else (phaseA.getD i 0 + phaseB.getD i 0) / 2
  | _ => phaseA

end AudioProcessor

namespace FFTOperations

/-- `findMax` from src/operations.js: `let max = arr[0] || 0; for ...`.
For a nonempty list `arr[0] || 0` coincides with the head (`0 || 0 = 0`). -/
noncomputable def findMax (arr : List ℝ) : ℝ :=
  match arr with
  | [] => 0
  | x :: xs => xs.foldl max x

/-- `findMin` from src/operations.js. -/
noncomputable def findMin (arr : List ℝ) : ℝ :=
  match arr with
  | [] => 0
  | x :: xs => xs.foldl min x

/-- AND operation: `result[i] = Math.min(magA[i], magB[i])` for `i < magA.length`. -/
noncomputable def and (magA magB : List ℝ) : List ℝ :=
  (List.range magA.length).map fun i => min (magA.getD i 0) (magB.getD i 0)

/-- OR operation: `result[i] = Math.max(magA[i], magB[i])`. -/
noncomputable def or (magA magB : List ℝ) : List ℝ :=
  (List.range magA.length).map fun i => max (magA.getD i 0) (magB.getD i 0)

/-- XOR operation: `result[i] = Math.abs(magA[i] - magB[i])`. -/
noncomputable def xor (magA magB : List ℝ) : List ℝ :=
  (List.range magA.length).map fun i => |magA.getD i 0 - magB.getD i 0|

/-- Multiply operation: `result[i] = magA[i] * magB[i]`. -/
noncomputable def multiply (magA magB : List ℝ) : List ℝ :=
  (List.range magA.length).map fun i => magA.getD i 0 * magB.getD i 0

/-- Average operation: `result[i] = (magA[i] + magB[i]) / 2`. -/
noncomputable def average (magA magB : List ℝ) : List ℝ :=
  (List.range magA.length).map fun i => (magA.getD i 0 + magB.getD i 0) / 2

/-- NOT A operation: `result[i] = maxA - magA[i] + minB`. -/
noncomputable def notA (magA magB : List ℝ) : List ℝ :=
  (List.range magA.length).map fun i => findMax magA - magA.getD i 0 + findMin magB

/-- NOT B operation: `result[i] = maxB - magB[i] + minA`. -/
noncomputable def notB (magA magB : List ℝ) : List ℝ :=
  (List.range magA.length).map fun i => findMax magB - magB.getD i 0 + findMin magA

/-- A Squared operation:
`const normalized = magA[i] / (maxA || 1); result[i] = normalized * normalized * maxA;`.
The JS guard `maxA || 1` substitutes `1` exactly when `maxA` is zero. -/
noncomputable def aSquared (magA magB : List ℝ) : List ℝ :=
  (List.range magA.length).map fun i =>
    let normalized := magA.getD i 0 / (if findMax magA = 0 then 1 else findMax magA)
    normalized * normalized * findMax magA

/-- B Squared operation (same guard, drawing values from `magB`,
indexing over `magA.length` as the source does). -/
noncomputable def bSquared (magA magB : List ℝ) : List ℝ :=
  (List.range magA.length).map fun i =>
    let normalized := magB.getD i 0 / (if findMax magB = 0 then 1 else findMax magB)
    normalized * normalized * findMax magB

/-- Subtract operation: `result[i] = Math.max(0, magA[i] - magB[i])`. -/
noncomputable def subtract (magA magB : List ℝ) : List ℝ :=
  (List.range magA.length).map fun i => max 0 (magA.getD i 0 - magB.getD i 0)

/-- The ten operator-valued own properties of the `FFTOperations` object.
`FFTOperations[operation]` finds exactly these keys as array-returning
operators; the remaining own keys (`apply`, `resetLog`, `_logged`) are
handled separately in `apply` below. -/
noncomputable def opTable (operation : String) : Option (List ℝ → List ℝ → List ℝ) :=
  match operation with
  | "and" => some and
  | "or" => some or
  | "xor" => some xor
  | "multiply" => some multiply
  | "average" => some average
  | "notA" => some notA
  | "notB" => some notB
  | "aSquared" => some aSquared
  | "bSquared" => some bSquared
  | "subtract" => some subtract
  | _ => none

/-- Result of one `FFTOperations.apply` call: the produced magnitude array,
the updated `_logged` module flag, and whether the unknown-selector
diagnostic (`console.error`) was emitted. -/
structure ApplyOutcome where
  result : List ℝ
  logged : Bool
  warned : Bool
deriving Inhabited

/-- `FFTOperations.apply(operation, magA, magB)` with the module-global
`_logged` flag threaded explicitly.  Behavior per the source:

* unknown selector (no own property): `console.error` diagnostic, returns
  `average(magA, magB)` immediately (the debug-log block is skipped);
* the non-operator own keys are nevertheless truthy properties, so they are
  invoked: `resetLog` returns `undefined` and the debug-log block then
  dereferences `result[sampleIdx]` of `undefined`, a TypeError; `apply`
  recurses with shifted arguments and dereferences an `undefined` argument
  (TypeError for nonempty inputs, the case exercised here); `_logged` is
  truthy once set, and calling a boolean raises a TypeError;
* a real operator runs, and if `_logged` was still false the debug-log block
  reads `magA[sampleIdx]`, `magB[sampleIdx]` and `result[sampleIdx]`, which
  throws exactly when one of those reads yields `undefined`.

A thrown TypeError is modelled as `Except.error`.  The prototype chain of the
JS object (e.g. the inherited key `toString`) is not modelled; no claim below
instantiates one of those inherited keys. -/
noncomputable def apply (operation : String) (magA magB : List ℝ) (logged : Bool) :
    Except String ApplyOutcome :=
  match opTable operation with
  | none =>
    if operation = "apply" ∨ operation = "resetLog" ∨ (operation = "_logged" ∧ logged) then
      .error "TypeError"
    else
      .ok ⟨average magA magB, logged, true⟩
  | some f =>
    let result := f magA magB
    if logged then .ok ⟨result, logged, false⟩
    else
      let sampleIdx := magA.length / 4
      if sampleIdx < magA.length ∧ sampleIdx < magB.length ∧ sampleIdx < result.length then
        .ok ⟨result, true, false⟩
      else .error "TypeError"

end FFTOperations

namespace AudioProcessor

/-- The per-output-frame loop of `process`: select source frames via
`frameIndex`, apply the magnitude operation (threading the `_logged` flag,
reset to `false` by the preceding `FFTOperations.resetLog()` call), combine
phases, and push `{ magnitude, phase }`.  A TypeError thrown by
`FFTOperations.apply` propagates out of `process`. -/
noncomputable def processFrames (framesA framesB : List FFTFrame)
    (operation phaseMode : String) (timeMatch : Bool) (target : ℕ) :
    Except String (List OutputFrame) :=
  Except.map Prod.fst <|
    (List.range target).foldlM (fun (s : List OutputFrame × Bool) i =>
      let indexA := frameIndex timeMatch i framesA.length target
      let indexB := frameIndex timeMatch i framesB.length target
      let frameA := framesA.getD indexA default
      let frameB := framesB.getD indexB default
      match FFTOperations.apply operation frameA.magnitude frameB.magnitude s.2 with
      | .error e => .error e
      | .ok outcome =>
        .ok (s.1 ++ [{ magnitude := outcome.result
                       phase := combinePhases frameA.phase frameB.phase
                         frameA.magnitude frameB.magnitude phaseMode }],
             outcome.logged)) (([] : List OutputFrame), false)

/-- The overlap-add accumulation loop of `resynthesize`: for each frame,
inverse-transform it, then
`for (j = 0; j < windowSize && offset + j < outputLength; j++) {
outputData[offset+j] += timeSignal[j] * window[j];
windowSum[offset+j] += window[j]; }`.
Returns `(outputData, windowSum)`.  The JS loop break on
`offset + j ≥ outputLength` is modelled by a guard on the body (the
condition is monotone in `j`, so guard and break agree). -/
noncomputable def overlapAdd (outputFrames : List OutputFrame)
    (windowSize overlapPercent : ℕ) : List ℝ × List ℝ :=
  let hop := hopSize windowSize overlapPercent
  let window := getHannWindow windowSize
  -- const outputLength = (outputFrames.length - 1) * hopSize + windowSize;
  let outputLength := ((outputFrames.length : ℤ) - 1) * hop + windowSize
  let outputLengthN := outputLength.toNat
  (List.range outputFrames.length).foldl (fun (s : List ℝ × List ℝ) i =>
    let frame := outputFrames.getD i default
    let timeSignal := performIFFT frame.magnitude frame.phase
    let offset := i * hop
    (List.range windowSize).foldl (fun (s : List ℝ × List ℝ) j =>
      if offset + j < outputLengthN then
        (s.1.set (offset + j)
           (s.1.getD (offset + j) 0 + timeSignal.getD j 0 * window.getD j 0),
         s.2.set (offset + j) (s.2.getD (offset + j) 0 + window.getD j 0))
      else s) s)
    (List.replicate outputLengthN 0, List.replicate outputLengthN 0)

/-- The window-sum normalization pass of `resynthesize`:
`if (windowSum[i] > 0.001) { outputData[i] /= windowSum[i]; }`. -/
noncomputable def windowNormalize (outputData windowSum : List ℝ) : List ℝ :=
  (List.range outputData.length).map fun i =>
    if 0.001 < windowSum.getD i 0 then outputData.getD i 0 / windowSum.getD i 0
    else outputData.getD i 0

/-- The final clip-safe scaling pass of `resynthesize`: find the maximum
absolute sample (`maxAmplitude`, starting from 0), and if it is positive,
scale every sample by `0.95 / maxAmplitude`. -/
noncomputable def clipScale (outputData : List ℝ) : List ℝ :=
  let maxAmplitude := outputData.foldl (fun m x => if m < |x| then |x| else m) 0
  if 0 < maxAmplitude then outputData.map fun x => x * (0.95 / maxAmplitude)
  else outputData

/-- `resynthesize(windowSize, overlapPercent)` over the stored output frames:
overlap-add accumulation, window-sum normalization, then clip-safe scaling.
(The trailing `createBuffer`/`copyToChannel` packaging is browser plumbing and
is not modelled; the sample list itself is returned.) -/
noncomputable def resynthesize (outputFrames : List OutputFrame)
    (windowSize overlapPercent : ℕ) : List ℝ :=
  let acc := overlapAdd outputFrames windowSize overlapPercent
  clipScale (windowNormalize acc.1 acc.2)

/-- `process(operation, phaseMode, windowSize, overlapPercent, timeMatch)`:
validate that both buffers are loaded (the only explicit `throw` in the
pipeline), run STFT analysis on both, choose the target frame count, run the
frame loop, and resynthesize.  Progress callbacks and `console` logging are
side-effect-only and not modelled. -/
noncomputable def process (audioBufferA audioBufferB : Option (List ℝ))
    (operation phaseMode : String) (windowSize overlapPercent : ℕ)
    (timeMatch : Bool) : Except String (List ℝ) :=
  match audioBufferA, audioBufferB with
  | some bufA, some bufB =>
    let framesA := performSTFT bufA windowSize overlapPercent
    let framesB := performSTFT bufB windowSize overlapPercent
    let target := targetFrames timeMatch framesA.length framesB.length
    match processFrames framesA framesB operation phaseMode timeMatch target with
    | .error e => .error e
    | .ok outputFrames => .ok (resynthesize outputFrames windowSize overlapPercent)
  | _, _ => .error "Both audio files must be loaded"

end AudioProcessor

/-! ### General helper lemmas -/

theorem getD_mem_of_lt {α : Type} (l : List α) (i : ℕ) (d : α) (h : i < l.length) :
    l.getD i d ∈ l := by
  rw [List.getD_eq_getElem l d h]
  exact l.getElem_mem h

theorem eq_singleton_getD {α : Type} (l : List α) (d : α) (h : l.length = 1) :
    l = [l.getD 0 d] := by
  cases l with
  | nil => simp at h
  | cons x xs =>
    simp only [List.length_cons, Nat.add_left_eq_self] at h
    rw [List.eq_nil_of_length_eq_zero h]
    rfl

theorem getD_map_range {α : Type} (n : ℕ) (f : ℕ → α) (i : ℕ) (d : α) :
    ((List.range n).map f).getD i d = if i < n then f i else d := by
  by_cases h : i < n
  · rw [List.getD_eq_getElem?_getD, List.getElem?_map, if_pos h,
      List.getElem?_range h]
    rfl
  · rw [List.getD_eq_getElem?_getD, List.getElem?_map, if_neg h,
      List.getElem?_eq_none (by simpa using h)]
    rfl

/-! ### C5: operator algebra -/

/-- C5: for all same-length magnitude arrays `a` and `b`:
`and(a,b) ≤ or(a,b)` elementwise; `xor(a,b) = |a−b|` elementwise; every
element of `subtract(a,b)` is `≥ 0`; `average` and `multiply` are
commutative. -/
theorem operator_algebra (a b : List ℝ) (hlen : a.length = b.length) :
    (∀ i, (FFTOperations.and a b).getD i 0 ≤ (FFTOperations.or a b).getD i 0) ∧
    (∀ i, i < a.length →
      (FFTOperations.xor a b).getD i 0 = |a.getD i 0 - b.getD i 0|) ∧
    (∀ x ∈ FFTOperations.subtract a b, 0 ≤ x) ∧
    FFTOperations.average a b = FFTOperations.average b a ∧
    FFTOperations.multiply a b = FFTOperations.multiply b a := by
  refine ⟨fun i => ?_, fun i hi => ?_, fun x hx => ?_, ?_, ?_⟩
  · rw [FFTOperations.and, FFTOperations.or, getD_map_range, getD_map_range]
    by_cases h : i < a.length
    · simp only [if_pos h]
      exact min_le_max
    · simp [if_neg h]
  · rw [FFTOperations.xor, getD_map_range, if_pos hi]
  · rw [FFTOperations.subtract] at hx
    obtain ⟨i, _, rfl⟩ := List.mem_map.mp hx
    exact le_max_left 0 _
  · rw [FFTOperations.average, FFTOperations.average, hlen]
    exact List.map_congr_left fun i _ => by rw [add_comm]
  · rw [FFTOperations.multiply, FFTOperations.multiply, hlen]
    exact List.map_congr_left fun i _ => by rw [mul_comm]

/-- Witness for C5 at `a = [1, 3]`, `b = [2, 0]`. -/
theorem operator_algebra_witness :
    (FFTOperations.and [1, 3] [2, 0]).getD 0 0 ≤ (FFTOperations.or [1, 3] [2, 0]).getD 0 0 ∧
    (FFTOperations.xor [1, 3] [2, 0]).getD 1 0 = |(3 : ℝ) - 0| ∧
    FFTOperations.average [1, 3] [2, 0] = FFTOperations.average [2, 0] [1, 3] ∧
    FFTOperations.multiply [1, 3] [2, 0] = FFTOperations.multiply [2, 0] [1, 3] := by
  have h := operator_algebra [1, 3] [2, 0] (by simp)
  exact ⟨h.1 0, by simpa using h.2.1 1 (by simp), h.2.2.2.1, h.2.2.2.2⟩

/-! ### C9: aSquared / bSquared on an all-zero-maximum frame -/

/-- C9: when the running maximum of the relevant magnitude array is `0`, the
`maxA || 1` guard divides by `1` rather than `0`, and `aSquared` / `bSquared`
return an all-zero array (no division by zero occurs, hence no NaN/infinity
in the idealized semantics). -/
theorem squared_zero_max_safe (a b : List ℝ) :
    (FFTOperations.findMax a = 0 →
      FFTOperations.aSquared a b = List.replicate a.length 0) ∧
    (FFTOperations.findMax b = 0 →
      FFTOperations.bSquared a b = List.replicate a.length 0) := by
  constructor
  · intro h
    rw [FFTOperations.aSquared]
    have : ∀ i ∈ List.range a.length,
        (fun i =>
          let normalized := a.getD i 0 / (if FFTOperations.findMax a = 0 then 1 else FFTOperations.findMax a)
          normalized * normalized * FFTOperations.findMax a) i = (0 : ℝ) := by
      intro i _
      simp [h]
    rw [List.map_congr_left this]
    simp [List.map_const']
  · intro h
    rw [FFTOperations.bSquared]
    have : ∀ i ∈ List.range a.length,
        (fun i =>
          let normalized := b.getD i 0 / (if FFTOperations.findMax b = 0 then 1 else FFTOperations.findMax b)
          normalized * normalized * FFTOperations.findMax b) i = (0 : ℝ) := by
      intro i _
      simp [h]
    rw [List.map_congr_left this]
    simp [List.map_const']

/-- Witness for C9 at the all-zero magnitude array `[0, 0]`. -/
theorem squared_zero_max_safe_witness :
    FFTOperations.aSquared [0, 0] [5, 6] = [0, 0] ∧
    FFTOperations.bSquared [5, 6] [0, 0] = [0, 0] := by
  have h1 := (squared_zero_max_safe [0, 0] [5, 6]).1
    (by simp [FFTOperations.findMax])
  have h2 := (squared_zero_max_safe [5, 6] [0, 0]).2
    (by simp [FFTOperations.findMax])
  constructor
  · rw [h1]; rfl
  · rw [h2]; rfl

/-! ### C10: combinePhases on an unrecognized mode string -/

/-- C10: for every phase-mode string other than `"a"`, `"b"`, `"average"`,
`combinePhases` returns `phaseA` verbatim — identical to mode `"a"`. -/
theorem combinePhases_default_returns_phaseA (phaseA phaseB magA magB : List ℝ)
    (mode : String) (ha : mode ≠ "a") (hb : mode ≠ "b") (hav : mode ≠ "average") :
    AudioProcessor.combinePhases phaseA phaseB magA magB mode = phaseA ∧
    AudioProcessor.combinePhases phaseA phaseB magA magB mode =
      AudioProcessor.combinePhases phaseA phaseB magA magB "a" := by
  have h : AudioProcessor.combinePhases phaseA phaseB magA magB mode = phaseA := by
    rw [AudioProcessor.combinePhases.eq_def]
    split <;> simp_all
  exact ⟨h, by rw [h]; rfl⟩

/-- Witness for C10 at the unrecognized mode string `"weighted"`. -/
theorem combinePhases_default_witness :
    AudioProcessor.combinePhases [1, 2] [3, 4] [5, 6] [7, 8] "weighted" = [1, 2] := by
  exact (combinePhases_default_returns_phaseA [1, 2] [3, 4] [5, 6] [7, 8] "weighted"
    (by decide) (by decide) (by decide)).1

/-! ### C6: unknown operation selector -/

/-- C6 counterexample: `"resetLog"` is not one of the ten defined operators
(`opTable` rejects it), yet `apply` does not fall back to `average`: the call
aborts with a TypeError (the dispatched own property returns `undefined` and
the debug-log block dereferences it). -/
theorem apply_resetLog_aborts :
    FFTOperations.apply "resetLog" [1, 2, 3, 4] [5, 6, 7, 8] false =
      .error "TypeError" ∧
    FFTOperations.opTable "resetLog" = none := by
  constructor <;> rfl

/-- C6 (amended): for every selector string that is not an own key of the
operations object — i.e. rejected by `opTable` and distinct from `"apply"`,
`"resetLog"` and a truthy `"_logged"` — `apply` returns exactly
`average(magA, magB)`, emits the configuration diagnostic, and does not
abort. -/
theorem apply_unknown_falls_back_to_average (op : String) (a b : List ℝ)
    (logged : Bool) (hop : FFTOperations.opTable op = none) (h1 : op ≠ "apply")
    (h2 : op ≠ "resetLog") (h3 : ¬(op = "_logged" ∧ logged)) :
    FFTOperations.apply op a b logged =
      .ok ⟨FFTOperations.average a b, logged, true⟩ := by
  rw [FFTOperations.apply, hop]
  simp [h1, h2, h3]

/-- Witness for the amended C6 at the unknown selector `"nand"`. -/
theorem apply_unknown_witness :
    FFTOperations.apply "nand" [1, 2] [3, 4] false =
      .ok ⟨FFTOperations.average [1, 2] [3, 4], false, true⟩ := by
  exact apply_unknown_falls_back_to_average "nand" [1, 2] [3, 4] false rfl
    (by decide) (by decide) (by simp)

/-! ### C4: frame alignment -/

theorem targetFrames_true_eq (lenA lenB : ℕ) :
    AudioProcessor.targetFrames true lenA lenB = (lenA + lenB + 1) / 2 := by
  rw [AudioProcessor.targetFrames, if_pos rfl]
  have h1 : ((lenA : ℚ) + (lenB : ℚ)) / 2 = ((lenA + lenB : ℤ) : ℚ) / ((2 : ℕ) : ℚ) := by
    push_cast; ring
  rw [h1, show ((lenA + lenB : ℤ) : ℚ) / ((2 : ℕ) : ℚ) =
      -(-((lenA + lenB : ℤ) : ℚ) / ((2 : ℕ) : ℚ)) by ring,
    Int.ceil_neg, ← Int.cast_neg, Rat.floor_intCast_div_natCast]
  omega

theorem frameIndex_true_eq (i len target : ℕ) :
    AudioProcessor.frameIndex true i len target = min (i * len / target) (len - 1) := by
  rw [AudioProcessor.frameIndex, if_pos rfl]
  have h1 : (i : ℚ) * (len : ℚ) = (((i * len : ℕ) : ℤ) : ℚ) := by push_cast; ring
  rw [h1, Rat.floor_intCast_div_natCast, ← Int.ofNat_ediv, Int.toNat_natCast]

/-- C4: with `timeAlign = false` the target frame count is
`min(lenA, lenB)` and the index maps are the identity; with
`timeAlign = true` the target is `⌈(lenA+lenB)/2⌉ = (lenA+lenB+1)/2`, the
index maps are `min(⌊i·len/T⌋, len−1)`, non-decreasing in `i`, and bounded
within their source lengths. -/
theorem alignment_spec (lenA lenB : ℕ) (ha : 1 ≤ lenA) (hb : 1 ≤ lenB) :
    AudioProcessor.targetFrames false lenA lenB = min lenA lenB ∧
    (∀ i, AudioProcessor.frameIndex false i lenA
        (AudioProcessor.targetFrames false lenA lenB) = i) ∧
    AudioProcessor.targetFrames true lenA lenB = (lenA + lenB + 1) / 2 ∧
    (∀ i, AudioProcessor.frameIndex true i lenA (AudioProcessor.targetFrames true lenA lenB) =
      min (i * lenA / AudioProcessor.targetFrames true lenA lenB) (lenA - 1)) ∧
    (∀ i j, i ≤ j →
      AudioProcessor.frameIndex true i lenA (AudioProcessor.targetFrames true lenA lenB) ≤
        AudioProcessor.frameIndex true j lenA (AudioProcessor.targetFrames true lenA lenB)) ∧
    (∀ i j, i ≤ j →
      AudioProcessor.frameIndex true i lenB (AudioProcessor.targetFrames true lenA lenB) ≤
        AudioProcessor.frameIndex true j lenB (AudioProcessor.targetFrames true lenA lenB)) ∧
    (∀ i, AudioProcessor.frameIndex true i lenA
        (AudioProcessor.targetFrames true lenA lenB) < lenA) ∧
    (∀ i, AudioProcessor.frameIndex true i lenB
        (AudioProcessor.targetFrames true lenA lenB) < lenB) := by
  have mono : ∀ len i j, i ≤ j →
      AudioProcessor.frameIndex true i len (AudioProcessor.targetFrames true lenA lenB) ≤
        AudioProcessor.frameIndex true j len (AudioProcessor.targetFrames true lenA lenB) := by
    intro len i j hij
    rw [frameIndex_true_eq, frameIndex_true_eq]
    exact min_le_min (Nat.div_le_div_right (Nat.mul_le_mul_right len hij)) le_rfl
  have bound : ∀ len, 1 ≤ len → ∀ i,
      AudioProcessor.frameIndex true i len (AudioProcessor.targetFrames true lenA lenB) < len := by
    intro len hlen i
    rw [frameIndex_true_eq]
    have := min_le_right (i * len / AudioProcessor.targetFrames true lenA lenB) (len - 1)
    omega
  exact ⟨rfl, fun i => rfl, targetFrames_true_eq lenA lenB,
    fun i => frameIndex_true_eq i lenA _, mono lenA, mono lenB,
    bound lenA ha, bound lenB hb⟩

/-- Witness for C4 at `lenA = 100`, `lenB = 80`: the target is 90 with
time-alignment and 80 without, and the index maps are monotone and in
bounds at sample indices. -/
theorem alignment_spec_witness :
    AudioProcessor.targetFrames true 100 80 = 90 ∧
    AudioProcessor.targetFrames false 100 80 = 80 ∧
    AudioProcessor.frameIndex false 7 100 80 = 7 ∧
    AudioProcessor.frameIndex true 5 100 90 ≤ AudioProcessor.frameIndex true 7 100 90 ∧
    AudioProcessor.frameIndex true 89 100 90 < 100 ∧
    AudioProcessor.frameIndex true 89 80 90 < 80 := by
  have h := alignment_spec 100 80 (by norm_num) (by norm_num)
  have h90 : AudioProcessor.targetFrames true 100 80 = 90 := by
    rw [h.2.2.1]
  refine ⟨h90, by rw [h.1]; norm_num, h.2.1 7, ?_, ?_, ?_⟩
  · have := h.2.2.2.2.1 5 7 (by norm_num)
    rwa [h90] at this
  · have := h.2.2.2.2.2.2.1 89
    rwa [h90] at this
  · have := h.2.2.2.2.2.2.2 89
    rwa [h90] at this

/-! ### C3: STFT frame count -/

theorem stftLoop_length (signal : List ℝ) (ws hop : ℕ) (hh : 0 < hop)
    (window : List ℝ) (i : ℕ) :
    (AudioProcessor.stftLoop signal ws hop hh window i).length =
      if i + ws ≤ signal.length then (signal.length - ws - i) / hop + 1 else 0 := by
  generalize hm : signal.length + 1 - i = m
  induction m using Nat.strong_induction_on generalizing i with
  | _ m ih =>
    rw [AudioProcessor.stftLoop]
    by_cases h : i + ws ≤ signal.length
    · rw [if_pos h, if_pos h, List.length_cons,
        ih (signal.length + 1 - (i + hop)) (by omega) (i + hop) rfl]
      by_cases h2 : i + hop + ws ≤ signal.length
      · rw [if_pos h2]
        have h3 : signal.length - ws - (i + hop) = signal.length - ws - i - hop := by
          omega
        rw [h3, ← Nat.div_eq_sub_div hh (by omega)]
      · rw [if_neg h2, Nat.div_eq_of_lt (by omega)]
    · rw [if_neg h, if_neg h, List.length_nil]

/-- C3: for a signal of length `L`, window size `N` and overlap `O` with hop
`H = ⌊N·(1−O/100)⌋ ≥ 1`, STFT analysis produces exactly `(L−N)/H + 1` frames
when `L ≥ N` and `0` frames when `L < N` (trailing samples beyond the last
full frame are dropped). -/
theorem performSTFT_frame_count (signal : List ℝ) (ws ov : ℕ)
    (hh : 1 ≤ AudioProcessor.hopSize ws ov) :
    (ws ≤ signal.length →
      (AudioProcessor.performSTFT signal ws ov).length =
        (signal.length - ws) / AudioProcessor.hopSize ws ov + 1) ∧
    (signal.length < ws →
      (AudioProcessor.performSTFT signal ws ov).length = 0) := by
  have hh0 : 0 < AudioProcessor.hopSize ws ov := hh
  rw [AudioProcessor.performSTFT, dif_pos hh0, stftLoop_length]
  constructor
  · intro h
    rw [if_pos (by omega)]
    norm_num
  · intro h
    rw [if_neg (by omega)]

/-- Witness for C3: signal length 8, window 4, overlap 50% (hop 2) gives
`(8−4)/2 + 1 = 3` frames; signal length 3 gives 0 frames. -/
theorem performSTFT_frame_count_witness :
    (AudioProcessor.performSTFT [0, 0, 0, 0, 0, 0, 0, 0] 4 50).length = 3 ∧
    (AudioProcessor.performSTFT [0, 0, 0] 4 50).length = 0 := by
  have hhop : AudioProcessor.hopSize 4 50 = 2 := by
    rw [AudioProcessor.hopSize]
    push_cast
    rw [show ((4 : ℚ) * (1 - 50 / 100)) = ((2 : ℤ) : ℚ) by norm_num,
      Int.floor_intCast]
    rfl
  constructor
  · have := (performSTFT_frame_count [0, 0, 0, 0, 0, 0, 0, 0] 4 50 (by omega)).1
      (by simp)
    rw [this]
    simp [hhop]
  · exact (performSTFT_frame_count [0, 0, 0] 4 50 (by omega)).2 (by simp)

/-! ### C8: half-spectrum frame invariants -/

theorem stftLoop_mem_eq_performFFT (signal : List ℝ) (ws hop : ℕ) (hh : 0 < hop)
    (window : List ℝ) (i : ℕ) (frame : AudioProcessor.FFTFrame)
    (hmem : frame ∈ AudioProcessor.stftLoop signal ws hop hh window i) :
    ∃ s : List ℝ, s.length = ws ∧ frame = AudioProcessor.performFFT s := by
  generalize hm : signal.length + 1 - i = m
  induction m using Nat.strong_induction_on generalizing i with
  | _ m ih =>
    rw [AudioProcessor.stftLoop] at hmem
    by_cases h : i + ws ≤ signal.length
    · rw [if_pos h] at hmem
      rcases List.mem_cons.mp hmem with h1 | h1
      · exact ⟨_, by simp, h1⟩
      · exact ih (signal.length + 1 - (i + hop)) (by omega) (i + hop) h1 rfl
    · rw [if_neg h] at hmem
      exact absurd hmem (List.not_mem_nil frame)

theorem performFFT_magnitude_length (s : List ℝ) :
    (AudioProcessor.performFFT s).magnitude.length = s.length / 2 := by
  simp [AudioProcessor.performFFT]

theorem performFFT_phase_length (s : List ℝ) :
    (AudioProcessor.performFFT s).phase.length = s.length / 2 := by
  simp [AudioProcessor.performFFT]

/-- C8: every half-spectrum frame produced by forward analysis satisfies:
every magnitude value is `≥ 0` and every phase value lies in `(−π, π]`. -/
theorem stft_frame_invariants (signal : List ℝ) (ws ov : ℕ)
    (frame : AudioProcessor.FFTFrame)
    (hmem : frame ∈ AudioProcessor.performSTFT signal ws ov) :
    (∀ x ∈ frame.magnitude, 0 ≤ x) ∧
    (∀ p ∈ frame.phase, -Real.pi < p ∧ p ≤ Real.pi) := by
  rw [AudioProcessor.performSTFT] at hmem
  split at hmem
  · obtain ⟨s, -, rfl⟩ := stftLoop_mem_eq_performFFT _ _ _ _ _ _ _ hmem
    constructor
    · intro x hx
      rw [AudioProcessor.performFFT] at hx
      obtain ⟨k, -, rfl⟩ := List.mem_map.mp hx
      exact Real.sqrt_nonneg _
    · intro p hp
      rw [AudioProcessor.performFFT] at hp
      obtain ⟨k, -, rfl⟩ := List.mem_map.mp hp
      exact ⟨Complex.neg_pi_lt_arg _, Complex.arg_le_pi _⟩
  · exact absurd hmem (List.not_mem_nil frame)

theorem hopSize_two_zero : AudioProcessor.hopSize 2 0 = 2 := by
  rw [AudioProcessor.hopSize]
  push_cast
  rw [show ((2 : ℚ) * (1 - 0 / 100)) = ((2 : ℤ) : ℚ) by norm_num,
    Int.floor_intCast]
  rfl

/-- Witness for C8 at the first analysis frame of the signal `[0, 0]` with
window size 2 and overlap 0. -/
theorem stft_frame_invariants_witness :
    0 ≤ ((AudioProcessor.performSTFT [0, 0] 2 0).getD 0 default).magnitude.getD 0 0 ∧
    -Real.pi < ((AudioProcessor.performSTFT [0, 0] 2 0).getD 0 default).phase.getD 0 0 ∧
    ((AudioProcessor.performSTFT [0, 0] 2 0).getD 0 default).phase.getD 0 0 ≤ Real.pi := by
  have hlen : (AudioProcessor.performSTFT [0, 0] 2 0).length = 1 := by
    have := (performSTFT_frame_count [0, 0] 2 0 (by rw [hopSize_two_zero]; omega)).1
      (by simp)
    rw [this, hopSize_two_zero]
    simp
  set f := (AudioProcessor.performSTFT [0, 0] 2 0).getD 0 default with hf
  have hmem : f ∈ AudioProcessor.performSTFT [0, 0] 2 0 :=
    getD_mem_of_lt _ _ _ (by omega)
  have h := stft_frame_invariants [0, 0] 2 0 f hmem
  have hmem2 := hmem
  rw [AudioProcessor.performSTFT,
    dif_pos (show 0 < AudioProcessor.hopSize 2 0 by rw [hopSize_two_zero]; omega)] at hmem2
  obtain ⟨s, hs, heq⟩ := stftLoop_mem_eq_performFFT _ _ _ _ _ _ _ hmem2
  have hmag : 0 < f.magnitude.length := by
    rw [heq, performFFT_magnitude_length, hs]
    norm_num
  have hpha : 0 < f.phase.length := by
    rw [heq, performFFT_phase_length, hs]
    norm_num
  exact ⟨h.1 _ (getD_mem_of_lt _ _ _ hmag), (h.2 _ (getD_mem_of_lt _ _ _ hpha)).1,
    (h.2 _ (getD_mem_of_lt _ _ _ hpha)).2⟩

/-! ### C2: precondition validation -/

/-- C2 (amended, positive part): a missing/absent input signal makes
`process` fail immediately with the descriptive error of the source
(`throw new Error('Both audio files must be loaded')`). -/
theorem process_missing_input_errors (bufA bufB : Option (List ℝ))
    (op mode : String) (ws ov : ℕ) (tm : Bool) (h : bufA = none ∨ bufB = none) :
    AudioProcessor.process bufA bufB op mode ws ov tm =
      .error "Both audio files must be loaded" := by
  rcases h with h | h
  · subst h; rfl
  · subst h
    cases bufA <;> rfl

/-- Witness for the amended C2. -/
theorem process_missing_input_witness :
    AudioProcessor.process none (some [1, 2]) "and" "a" 4 50 true =
      .error "Both audio files must be loaded" :=
  process_missing_input_errors none (some [1, 2]) "and" "a" 4 50 true (Or.inl rfl)

theorem hopSize_six_zero : AudioProcessor.hopSize 6 0 = 6 := by
  rw [AudioProcessor.hopSize]
  push_cast
  rw [show ((6 : ℚ) * (1 - 0 / 100)) = ((6 : ℤ) : ℚ) by norm_num,
    Int.floor_intCast]
  rfl

theorem and_length (a b : List ℝ) : (FFTOperations.and a b).length = a.length := by
  simp [FFTOperations.and]

/-- C2 counterexample: with both buffers loaded, a transform size of 6 — not
a power of two — is not rejected: `process` runs to completion and returns an
output (`isOk`), instead of failing with a descriptive error as the claim
requires.  (In the browser the transform silently reads out of bounds and
produces meaningless values; no exception is raised.) -/
theorem process_accepts_non_power_of_two_size :
    (AudioProcessor.process (some [0, 0, 0, 0, 0, 0]) (some [0, 0, 0, 0, 0, 0])
      "and" "a" 6 0 true).isOk = true := by
  have hlen : (AudioProcessor.performSTFT [0, 0, 0, 0, 0, 0] 6 0).length = 1 := by
    have := (performSTFT_frame_count [0, 0, 0, 0, 0, 0] 6 0
      (by rw [hopSize_six_zero]; omega)).1 (by simp)
    rw [this, hopSize_six_zero]
    simp
  set frames := AudioProcessor.performSTFT [0, 0, 0, 0, 0, 0] 6 0 with hframes
  set f := frames.getD 0 default with hfdef
  have hmem : f ∈ frames := getD_mem_of_lt _ _ _ (by omega)
  have hmem2 := hmem
  rw [hframes, AudioProcessor.performSTFT,
    dif_pos (show 0 < AudioProcessor.hopSize 6 0 by rw [hopSize_six_zero]; omega)] at hmem2
  obtain ⟨s, hs, hfeq⟩ := stftLoop_mem_eq_performFFT _ _ _ _ _ _ _ hmem2
  have hmag : f.magnitude.length = 3 := by
    rw [hfeq, performFFT_magnitude_length, hs]
  have hsingle : frames = [f] := eq_singleton_getD frames default hlen
  have htarget : AudioProcessor.targetFrames true 1 1 = 1 := by
    rw [targetFrames_true_eq]
  have hindex : AudioProcessor.frameIndex true 0 1 1 = 0 := by
    rw [frameIndex_true_eq]
    simp
  have happly : FFTOperations.apply "and" f.magnitude f.magnitude false =
      .ok ⟨FFTOperations.and f.magnitude f.magnitude, true, false⟩ := by
    rw [FFTOperations.apply]
    have : FFTOperations.opTable "and" = some FFTOperations.and := rfl
    rw [this]
    simp only [Bool.false_eq_true, if_false, hmag, and_length]
    norm_num
  have hpf : AudioProcessor.processFrames frames frames "and" "a" true 1 =
      .ok [{ magnitude := FFTOperations.and f.magnitude f.magnitude
             phase := AudioProcessor.combinePhases f.phase f.phase
               f.magnitude f.magnitude "a" }] := by
    rw [AudioProcessor.processFrames]
    rw [show List.range 1 = [0] from rfl]
    rw [List.foldlM_cons]
    simp only [hsingle, List.length_cons, List.length_nil, hindex, List.getD_cons_zero]
    rw [happly]
    rfl
  rw [AudioProcessor.process.eq_def]
  simp only [hsingle.symm, hframes.symm]
  rw [show AudioProcessor.targetFrames true frames.length frames.length =
      1 by rw [hlen]; exact htarget]
  rw [hpf]
  rfl

/-! ### C7: clip-safe output scaling -/

theorem foldl_maxAbs_init_le (l : List ℝ) (c : ℝ) :
    c ≤ l.foldl (fun m x => if m < |x| then |x| else m) c := by
  induction l generalizing c with
  | nil => exact le_rfl
  | cons x xs ih =>
    simp only [List.foldl_cons]
    refine le_trans ?_ (ih _)
    split
    · exact le_of_lt (by assumption)
    · exact le_rfl

theorem foldl_maxAbs_mem_le (l : List ℝ) (c : ℝ) (x : ℝ) (hx : x ∈ l) :
    |x| ≤ l.foldl (fun m x => if m < |x| then |x| else m) c := by
  induction l generalizing c with
  | nil => exact absurd hx (List.not_mem_nil x)
  | cons y ys ih =>
    simp only [List.foldl_cons]
    rcases List.mem_cons.mp hx with rfl | h
    · refine le_trans ?_ (foldl_maxAbs_init_le ys _)
      split
      · exact le_rfl
      · exact le_of_not_lt (by assumption)
    · exact ih _ h

theorem lt_length_of_getD_ne {l : List ℝ} {i : ℕ} (h : l.getD i 0 ≠ 0) :
    i < l.length := by
  by_contra hh
  rw [List.getD_eq_default _ _ (by omega)] at h
  exact h rfl

theorem clipScale_bound (l : List ℝ) (h : ∃ i, l.getD i 0 ≠ 0) (i : ℕ) :
    |(AudioProcessor.clipScale l).getD i 0| ≤ 0.95 := by
  obtain ⟨j, hj⟩ := h
  have hjlt : j < l.length := lt_length_of_getD_ne hj
  have hmem : l.getD j 0 ∈ l := getD_mem_of_lt _ _ _ hjlt
  rw [AudioProcessor.clipScale]
  set M := l.foldl (fun m x => if m < |x| then |x| else m) 0 with hM
  have hMpos : 0 < M := lt_of_lt_of_le (abs_pos.mpr hj)
    (foldl_maxAbs_mem_le l 0 _ hmem)
  rw [if_pos hMpos]
  by_cases hi : i < l.length
  · rw [List.getD_eq_getElem _ _ (by simpa using hi), List.getElem_map]
    have hbound : |l[i]| ≤ M := foldl_maxAbs_mem_le l 0 _ (l.getElem_mem hi)
    rw [abs_mul, abs_of_pos (by positivity : (0 : ℝ) < 0.95 / M)]
    calc |l[i]| * (0.95 / M) ≤ M * (0.95 / M) :=
        mul_le_mul_of_nonneg_right hbound (by positivity)
      _ = 0.95 := by field_simp
  · rw [List.getD_eq_default _ _ (by simpa using hi)]
    norm_num

theorem foldl_maxAbs_all_zero (l : List ℝ) (h : ∀ x ∈ l, x = 0) :
    l.foldl (fun m x => if m < |x| then |x| else m) 0 = 0 := by
  induction l with
  | nil => rfl
  | cons y ys ih =>
    simp only [List.foldl_cons]
    rw [h y (List.mem_cons_self y ys)]
    rw [show (if (0 : ℝ) < |(0 : ℝ)| then |(0 : ℝ)| else 0) = 0 by simp]
    exact ih fun x hx => h x (List.mem_cons_of_mem y hx)

theorem clipScale_all_zero (l : List ℝ) (h : ∀ i, l.getD i 0 = 0) :
    AudioProcessor.clipScale l = l := by
  have hz : ∀ x ∈ l, x = 0 := by
    intro x hx
    obtain ⟨k, hk, rfl⟩ := List.mem_iff_getElem.mp hx
    have := h k
    rwa [List.getD_eq_getElem _ _ hk] at this
  rw [AudioProcessor.clipScale]
  rw [foldl_maxAbs_all_zero l hz, if_neg (lt_irrefl 0)]

theorem windowNormalize_getD (d w : List ℝ) (i : ℕ) :
    (AudioProcessor.windowNormalize d w).getD i 0 =
      if i < d.length then
        (if 0.001 < w.getD i 0 then d.getD i 0 / w.getD i 0 else d.getD i 0)
      else 0 := by
  rw [AudioProcessor.windowNormalize, getD_map_range]

/-- C7: if at least one accumulated overlap-add sample is nonzero, then after
the final clip-safe scaling every sample of the resynthesized output has
absolute value `≤ 0.95`; if the accumulated output is entirely zero, the
scaling step leaves the (window-normalized) signal unscaled. -/
theorem resynthesize_clip_safe (frames : List AudioProcessor.OutputFrame) (ws ov : ℕ) :
    ((∃ j, (AudioProcessor.overlapAdd frames ws ov).1.getD j 0 ≠ 0) →
      ∀ i, |(AudioProcessor.resynthesize frames ws ov).getD i 0| ≤ 0.95) ∧
    ((∀ j, (AudioProcessor.overlapAdd frames ws ov).1.getD j 0 = 0) →
      AudioProcessor.resynthesize frames ws ov =
        AudioProcessor.windowNormalize (AudioProcessor.overlapAdd frames ws ov).1
          (AudioProcessor.overlapAdd frames ws ov).2) := by
  constructor
  · rintro ⟨j, hj⟩ i
    rw [AudioProcessor.resynthesize]
    apply clipScale_bound
    refine ⟨j, ?_⟩
    rw [windowNormalize_getD, if_pos (lt_length_of_getD_ne hj)]
    split
    · exact div_ne_zero hj (by linarith [show (0.001 : ℝ) <
        (AudioProcessor.overlapAdd frames ws ov).2.getD j 0 from by assumption])
    · exact hj
  · intro h
    rw [AudioProcessor.resynthesize]
    apply clipScale_all_zero
    intro i
    rw [windowNormalize_getD]
    by_cases hi : i < (AudioProcessor.overlapAdd frames ws ov).1.length
    · rw [if_pos hi, h i]
      split <;> simp
    · rw [if_neg hi]

theorem nat_log_two_two : Nat.log 2 2 = 1 := by
  rw [show (2 : ℕ) = 2 ^ 1 from rfl]
  exact Nat.log_pow one_lt_two 1

theorem revCarry_zero_one : AudioProcessor.revCarry 0 1 = 1 := by
  rw [AudioProcessor.revCarry]
  norm_num

theorem revCarry_one_one : AudioProcessor.revCarry 1 1 = 0 := by
  rw [AudioProcessor.revCarry]
  rw [if_pos (by norm_num)]
  rw [AudioProcessor.revCarry]
  norm_num

theorem fft_two (z0 z1 : ℂ) : AudioProcessor.fft [z0, z1] = [z0 + z1, z0 - z1] := by
  rw [AudioProcessor.fft]
  simp only [List.length_cons, List.length_nil]
  rw [if_neg (by omega)]
  have hbr : AudioProcessor.bitReverse [z0, z1] = [z0, z1] := by
    rw [AudioProcessor.bitReverse]
    simp only [List.length_cons, List.length_nil]
    rw [show List.range 2 = [0, 1] from rfl]
    simp only [List.foldl_cons, List.foldl_nil]
    norm_num [revCarry_zero_one, revCarry_one_one]
  rw [show (0 : ℕ) + 1 + 1 = 2 from rfl, nat_log_two_two]
  rw [show List.range 1 = [0] from rfl]
  simp only [List.foldl_cons, List.foldl_nil]
  rw [hbr]
  rw [AudioProcessor.stageFold]
  have hblocks : (2 + 2 ^ (0 + 1) - 1) / 2 ^ (0 + 1) = 1 := by norm_num
  rw [hblocks, show List.range 1 = [0] from rfl]
  simp only [List.foldl_cons, List.foldl_nil]
  rw [AudioProcessor.butterflyInner]
  simp only [pow_one, pow_succ, pow_zero, one_mul]
  rw [show (2 : ℕ) / 2 = 1 from rfl, show List.range 1 = [0] from rfl]
  simp only [List.foldl_cons, List.foldl_nil, Nat.zero_mul, Nat.add_zero, Nat.zero_add]
  simp [List.set, List.getD, mul_one]

theorem performIFFT_unit : AudioProcessor.performIFFT [1] [0] = [1, 1] := by
  have hbase : (List.range (1 * 2)).map (fun i =>
      if i < (1 : ℕ) then
        (⟨([(1 : ℝ)]).getD i 0 * Real.cos (([(0 : ℝ)]).getD i 0),
          ([(1 : ℝ)]).getD i 0 * Real.sin (([(0 : ℝ)]).getD i 0)⟩ : ℂ)
      else 0) = [1, 0] := by
    rw [show List.range (1 * 2) = [0, 1] from rfl]
    simp only [List.map_cons, List.map_nil]
    norm_num [Complex.ext_iff]
  have hifft : AudioProcessor.ifft [1, 0] = [1 / 2, 1 / 2] := by
    rw [AudioProcessor.ifft]
    simp only [List.length_cons, List.length_nil, List.map_cons, List.map_nil,
      map_one, map_zero]
    rw [fft_two]
    simp only [add_zero, sub_zero, List.map_cons, List.map_nil, map_one]
    norm_num
  rw [AudioProcessor.performIFFT]
  simp only [List.length_cons, List.length_nil, Nat.zero_add]
  rw [hbase, show (1 : ℕ) - 1 = 0 from rfl, show List.range' 1 0 = [] from rfl,
    List.foldl_nil, hifft]
  simp only [List.map_cons, List.map_nil]
  norm_num

theorem hannWindow_two : AudioProcessor.getHannWindow 2 = [0, 1] := by
  rw [AudioProcessor.getHannWindow, show List.range 2 = [0, 1] from rfl]
  simp only [List.map_cons, List.map_nil, List.cons.injEq, and_true]
  constructor
  · norm_num
  · rw [show (2 * Real.pi * ((1 : ℕ) : ℝ) / ((2 : ℕ) : ℝ) : ℝ) = Real.pi by
      push_cast; ring]
    rw [Real.cos_pi]
    norm_num

theorem overlapAdd_unit :
    AudioProcessor.overlapAdd [⟨[1], [0]⟩] 2 0 = ([0, 1], [0, 1]) := by
  rw [AudioProcessor.overlapAdd]
  simp only [List.length_cons, List.length_nil, Nat.zero_add]
  rw [hopSize_two_zero, hannWindow_two]
  rw [show (((1 : ℕ) : ℤ) - 1) * ((2 : ℕ) : ℤ) + ((2 : ℕ) : ℤ) = 2 by norm_num]
  rw [show ((2 : ℤ)).toNat = 2 from rfl]
  rw [show List.range 1 = [0] from rfl, show List.range 2 = [0, 1] from rfl]
  simp only [List.foldl_cons, List.foldl_nil, List.getD_cons_zero]
  rw [performIFFT_unit]
  norm_num
  rw [show List.replicate 2 (0 : ℝ) = [0, 0] from rfl]
  norm_num

/-- Witness for C7: the single frame `{magnitude: [1], phase: [0]}` with
window size 2 and overlap 0 produces a non-silent accumulated output, and the
resynthesized sample is bounded by 0.95 in absolute value. -/
theorem resynthesize_clip_safe_witness :
    |(AudioProcessor.resynthesize [⟨[1], [0]⟩] 2 0).getD 1 0| ≤ 0.95 := by
  have h1 : (AudioProcessor.overlapAdd [⟨[1], [0]⟩] 2 0).1.getD 1 0 = 1 := by
    rw [overlapAdd_unit]
    rfl
  exact (resynthesize_clip_safe [⟨[1], [0]⟩] 2 0).1 ⟨1, by rw [h1]; norm_num⟩ 1


/-! ### C1: FFT/IFFT round trip — infrastructure

The plan: (1) the bit-reversal pass permutes the input by `bitRev`;
(2) each butterfly stage combines adjacent blocks, so that after the stage
with block length `2^ℓ` every block holds the DFT of a strided subsequence
of the input; (3) at the final stage the single block is the full DFT;
(4) the inverse follows from root-of-unity orthogonality. -/

theorem foldl_range_succ {α : Type} (f : α → ℕ → α) (init : α) (m : ℕ) :
    (List.range (m + 1)).foldl f init = f ((List.range m).foldl f init) m := by
  rw [List.range_succ, List.foldl_append, List.foldl_cons, List.foldl_nil]

theorem getD_set_self (l : List ℂ) (i : ℕ) (x : ℂ) (h : i < l.length) :
    (l.set i x).getD i 0 = x := by
  rw [List.getD_eq_getElem?_getD, List.getElem?_set_eq_of_lt x h]
  rfl

theorem getD_set_ne (l : List ℂ) (i j : ℕ) (x : ℂ) (h : i ≠ j) :
    (l.set i x).getD j 0 = l.getD j 0 := by
  rw [List.getD_eq_getElem?_getD, List.getElem?_set_ne h,
    ← List.getD_eq_getElem?_getD]

/-! #### Arithmetic of the bit-reversal function -/

theorem bitRev_lt (K : ℕ) : ∀ i, AudioProcessor.bitRev K i < 2 ^ K := by
  induction K with
  | zero => intro i; simp [AudioProcessor.bitRev]
  | succ K ih =>
    intro i
    rw [AudioProcessor.bitRev]
    have h1 : i % 2 ≤ 1 := by omega
    have h2 := ih (i / 2)
    have h3 : i % 2 * 2 ^ K ≤ 2 ^ K := by
      calc i % 2 * 2 ^ K ≤ 1 * 2 ^ K := Nat.mul_le_mul_right _ h1
        _ = 2 ^ K := one_mul _
    calc i % 2 * 2 ^ K + AudioProcessor.bitRev K (i / 2) < i % 2 * 2 ^ K + 2 ^ K := by omega
      _ ≤ 2 ^ K + 2 ^ K := by omega
      _ = 2 ^ (K + 1) := by rw [pow_succ]; ring

theorem bitRev_zero (K : ℕ) : AudioProcessor.bitRev K 0 = 0 := by
  induction K with
  | zero => rfl
  | succ K ih => rw [AudioProcessor.bitRev]; simp [ih]

theorem bitRev_lower (K : ℕ) : ∀ i, i < 2 ^ K →
    AudioProcessor.bitRev (K + 1) i = 2 * AudioProcessor.bitRev K i := by
  induction K with
  | zero =>
    intro i hi
    interval_cases i
    rfl
  | succ K ih =>
    intro i hi
    rw [show AudioProcessor.bitRev (K + 1 + 1) i =
        i % 2 * 2 ^ (K + 1) + AudioProcessor.bitRev (K + 1) (i / 2) from rfl,
      show AudioProcessor.bitRev (K + 1) i =
        i % 2 * 2 ^ K + AudioProcessor.bitRev K (i / 2) from rfl,
      ih (i / 2) (by omega), pow_succ]
    ring

theorem bitRev_upper (K : ℕ) : ∀ i, i < 2 ^ K →
    AudioProcessor.bitRev (K + 1) (i + 2 ^ K) = 2 * AudioProcessor.bitRev K i + 1 := by
  induction K with
  | zero =>
    intro i hi
    interval_cases i
    rfl
  | succ K ih =>
    intro i hi
    have h2 : (i + 2 ^ (K + 1)) % 2 = i % 2 := by
      have : 2 ^ (K + 1) % 2 = 0 := by
        rw [pow_succ, Nat.mul_mod_left]
      omega
    have h3 : (i + 2 ^ (K + 1)) / 2 = i / 2 + 2 ^ K := by
      rw [pow_succ]
      omega
    rw [show AudioProcessor.bitRev (K + 1 + 1) (i + 2 ^ (K + 1)) =
        (i + 2 ^ (K + 1)) % 2 * 2 ^ (K + 1) +
          AudioProcessor.bitRev (K + 1) ((i + 2 ^ (K + 1)) / 2) from rfl,
      show AudioProcessor.bitRev (K + 1) i =
        i % 2 * 2 ^ K + AudioProcessor.bitRev K (i / 2) from rfl,
      h2, h3, ih (i / 2) (by omega), pow_succ]
    ring

theorem bitRev_involutive (K : ℕ) : ∀ i, i < 2 ^ K →
    AudioProcessor.bitRev K (AudioProcessor.bitRev K i) = i := by
  induction K with
  | zero =>
    intro i hi
    interval_cases i
    rfl
  | succ K ih =>
    intro i hi
    have hirec : AudioProcessor.bitRev (K + 1) i =
        i % 2 * 2 ^ K + AudioProcessor.bitRev K (i / 2) := rfl
    have hr : AudioProcessor.bitRev K (i / 2) < 2 ^ K := bitRev_lt K (i / 2)
    rcases Nat.even_or_odd i with he | ho
    · have hb : i % 2 = 0 := Nat.even_iff.mp he
      rw [hirec, hb, zero_mul, zero_add,
        bitRev_lower K _ hr, ih (i / 2) (by omega)]
      omega
    · have hb : i % 2 = 1 := Nat.odd_iff.mp ho
      rw [hirec, hb, one_mul, add_comm (2 ^ K),
        bitRev_upper K _ hr, ih (i / 2) (by omega)]
      omega

theorem revCarry_bitRev (K : ℕ) : ∀ i, i < 2 ^ K →
    AudioProcessor.revCarry (AudioProcessor.bitRev K i) (2 ^ K / 2) =
      AudioProcessor.bitRev K ((i + 1) % 2 ^ K) := by
  induction K with
  | zero =>
    intro i hi
    interval_cases i
    rw [AudioProcessor.revCarry]
    norm_num [AudioProcessor.bitRev]
  | succ K ih =>
    intro i hi
    have hhalf : 2 ^ (K + 1) / 2 = 2 ^ K := by
      rw [pow_succ]
      omega
    have hirec : AudioProcessor.bitRev (K + 1) i =
        i % 2 * 2 ^ K + AudioProcessor.bitRev K (i / 2) := rfl
    have hr : AudioProcessor.bitRev K (i / 2) < 2 ^ K := bitRev_lt K (i / 2)
    have hpow : 0 < 2 ^ K := Nat.pos_pow_of_pos K (by omega)
    rw [hhalf]
    rcases Nat.even_or_odd i with he | ho
    · have hb : i % 2 = 0 := Nat.even_iff.mp he
      rw [hirec, hb, zero_mul, zero_add]
      rw [AudioProcessor.revCarry, if_neg (by omega)]
      have hi1 : i + 1 < 2 ^ (K + 1) := by
        rcases Nat.lt_or_ge (i + 1) (2 ^ (K + 1)) with h | h
        · exact h
        · exfalso
          have : i + 1 = 2 ^ (K + 1) := by omega
          have : (i + 1) % 2 = 0 := by
            rw [this, pow_succ, Nat.mul_mod_left]
          omega
      rw [Nat.mod_eq_of_lt hi1]
      have : AudioProcessor.bitRev (K + 1) (i + 1) =
          (i + 1) % 2 * 2 ^ K + AudioProcessor.bitRev K ((i + 1) / 2) := rfl
      rw [this, show (i + 1) % 2 = 1 by omega, show (i + 1) / 2 = i / 2 by omega]
      ring
    · have hb : i % 2 = 1 := Nat.odd_iff.mp ho
      rw [hirec, hb, one_mul]
      rw [AudioProcessor.revCarry, if_pos (⟨hpow, by omega⟩ :
        0 < 2 ^ K ∧ 2 ^ K ≤ 2 ^ K + AudioProcessor.bitRev K (i / 2))]
      rw [show 2 ^ K + AudioProcessor.bitRev K (i / 2) - 2 ^ K =
        AudioProcessor.bitRev K (i / 2) by omega]
      rw [ih (i / 2) (by omega)]
      rcases Nat.lt_or_ge (i + 1) (2 ^ (K + 1)) with h | h
      · rw [Nat.mod_eq_of_lt h]
        have heven : (i + 1) % 2 = 0 := by omega
        have hlt : i / 2 + 1 < 2 ^ K := by
          have h2 : 2 ^ (K + 1) = 2 * 2 ^ K := by rw [pow_succ]; ring
          omega
        rw [Nat.mod_eq_of_lt hlt]
        have : AudioProcessor.bitRev (K + 1) (i + 1) =
            (i + 1) % 2 * 2 ^ K + AudioProcessor.bitRev K ((i + 1) / 2) := rfl
        rw [this, heven, zero_mul, zero_add, show (i + 1) / 2 = i / 2 + 1 by omega]
      · have heq : i + 1 = 2 ^ (K + 1) := by omega
        have h2 : 2 ^ (K + 1) = 2 * 2 ^ K := by rw [pow_succ]; ring
        rw [heq, Nat.mod_self, bitRev_zero]
        rw [show i / 2 + 1 = 2 ^ K by omega, Nat.mod_self, bitRev_zero]

theorem bitReverse_eq_fold (a : List ℂ) :
    AudioProcessor.bitReverse a =
      ((List.range a.length).foldl
        (AudioProcessor.bitRevSwapStep (a.length / 2)) (a, 0)).1 := rfl


theorem bitRevSwap_fold_spec (orig : List ℂ) (K : ℕ) (horig : orig.length = 2 ^ K) :
    ∀ m, m ≤ 2 ^ K →
      (((List.range m).foldl (AudioProcessor.bitRevSwapStep (2 ^ K / 2))
          (orig, 0)).1.length = 2 ^ K) ∧
      ((List.range m).foldl (AudioProcessor.bitRevSwapStep (2 ^ K / 2))
          (orig, 0)).2 = AudioProcessor.bitRev K (m % 2 ^ K) ∧
      ∀ q, q < 2 ^ K →
        ((List.range m).foldl (AudioProcessor.bitRevSwapStep (2 ^ K / 2))
            (orig, 0)).1.getD q 0 =
          orig.getD (if min q (AudioProcessor.bitRev K q) < m
            then AudioProcessor.bitRev K q else q) 0 := by
  intro m
  induction m with
  | zero =>
    intro _
    refine ⟨by simpa using horig, by simpa using (bitRev_zero K).symm, ?_⟩
    intro q hq
    simp
  | succ m ih =>
    intro hm1
    have hmlt : m < 2 ^ K := by omega
    obtain ⟨hlen, hj, harr⟩ := ih (by omega)
    rw [foldl_range_succ]
    set st := (List.range m).foldl (AudioProcessor.bitRevSwapStep (2 ^ K / 2))
      (orig, 0) with hst
    have hj2 : st.2 = AudioProcessor.bitRev K m := by
      rw [hj, Nat.mod_eq_of_lt hmlt]
    have hrlt : AudioProcessor.bitRev K m < 2 ^ K := bitRev_lt K m
    have hinv : AudioProcessor.bitRev K (AudioProcessor.bitRev K m) = m :=
      bitRev_involutive K m hmlt
    rw [AudioProcessor.bitRevSwapStep]
    refine ⟨?_, ?_, ?_⟩
    · split
      · simp [List.length_set, hlen]
      · exact hlen
    · rw [hj2, revCarry_bitRev K m hmlt]
    · intro q hq
      have hqinv : AudioProcessor.bitRev K (AudioProcessor.bitRev K q) = q :=
        bitRev_involutive K q hq
      by_cases hswap : m < st.2
      · have hswap2 : m < AudioProcessor.bitRev K m := by rwa [hj2] at hswap
        rw [if_pos hswap]
        rcases eq_or_ne q st.2 with rfl | hq1
        · have hlen2 : st.2 < (st.1.set m (st.1.getD st.2 0)).length := by
            rw [List.length_set, hlen, hj2]
            exact hrlt
          rw [getD_set_self _ _ _ hlen2, harr m hmlt, hj2, hinv]
          rw [if_neg (by omega), if_pos (by omega)]
        · rcases eq_or_ne q m with rfl | hq2
          · rw [getD_set_ne _ _ _ _ (Ne.symm hq1),
              getD_set_self _ _ _ (by rw [hlen]; exact hmlt), hj2,
              harr _ hrlt, hinv]
            rw [if_neg (by omega), if_pos (by omega)]
          · rw [getD_set_ne _ _ _ _ (Ne.symm hq1),
              getD_set_ne _ _ _ _ (Ne.symm hq2), harr q hq]
            have hne : min q (AudioProcessor.bitRev K q) ≠ m := by
              rcases min_choice q (AudioProcessor.bitRev K q) with h | h <;> rw [h]
              · exact hq2
              · intro hcon
                apply hq1
                rw [hj2, ← hcon, hqinv]
            by_cases hcond : min q (AudioProcessor.bitRev K q) < m
            · rw [if_pos hcond, if_pos (by omega)]
            · rw [if_neg hcond, if_neg (by omega)]
      · have hswap2 : AudioProcessor.bitRev K m ≤ m := by
          rw [← hj2]
          omega
        rw [if_neg hswap, harr q hq]
        rcases eq_or_ne q m with rfl | hq2
        · rcases Nat.lt_or_ge (AudioProcessor.bitRev K q) q with hlt | hge
          · rw [if_pos (by omega), if_pos (by omega)]
          · have heq : AudioProcessor.bitRev K q = q := by omega
            rw [heq, ite_self, ite_self]
        · rcases eq_or_ne q (AudioProcessor.bitRev K m) with rfl | hq3
          · rw [hinv]
            have hlt : AudioProcessor.bitRev K m < m := by omega
            rw [if_pos (by omega), if_pos (by omega)]
          · have hne : min q (AudioProcessor.bitRev K q) ≠ m := by
              rcases min_choice q (AudioProcessor.bitRev K q) with h | h <;> rw [h]
              · exact hq2
              · intro hcon
                apply hq3
                rw [← hcon, hqinv]
            by_cases hcond : min q (AudioProcessor.bitRev K q) < m
            · rw [if_pos hcond, if_pos (by omega)]
            · rw [if_neg hcond, if_neg (by omega)]

theorem bitReverse_length (a : List ℂ) (K : ℕ) (ha : a.length = 2 ^ K) :
    (AudioProcessor.bitReverse a).length = 2 ^ K := by
  rw [bitReverse_eq_fold, ha]
  exact (bitRevSwap_fold_spec a K ha (2 ^ K) le_rfl).1

theorem bitReverse_getD (a : List ℂ) (K : ℕ) (ha : a.length = 2 ^ K)
    (p : ℕ) (hp : p < 2 ^ K) :
    (AudioProcessor.bitReverse a).getD p 0 =
      a.getD (AudioProcessor.bitRev K p) 0 := by
  rw [bitReverse_eq_fold, ha]
  have h := (bitRevSwap_fold_spec a K ha (2 ^ K) le_rfl).2.2 p hp
  rw [h, if_pos (by have := bitRev_lt K p; omega)]

theorem butterflyInner_eq_fold (len i : ℕ) (wl : ℂ) (a : List ℂ) :
    AudioProcessor.butterflyInner len i wl a =
      ((List.range (len / 2)).foldl (AudioProcessor.butterflyStep len i wl)
        (a, 1)).1 := rfl

theorem butterflyStep_fold_length (len i : ℕ) (wl : ℂ) (l : List ℕ)
    (s : List ℂ × ℂ) :
    ((l.foldl (AudioProcessor.butterflyStep len i wl) s).1).length = s.1.length := by
  induction l generalizing s with
  | nil => rfl
  | cons x xs ih =>
    rw [List.foldl_cons, ih]
    simp [AudioProcessor.butterflyStep]

theorem butterflyInner_length (len i : ℕ) (wl : ℂ) (a : List ℂ) :
    (AudioProcessor.butterflyInner len i wl a).length = a.length := by
  rw [butterflyInner_eq_fold]
  exact butterflyStep_fold_length len i wl _ _

theorem butterflyStep_fold_spec (len i : ℕ) (wl : ℂ) (a : List ℂ)
    (hbound : i + len / 2 + len / 2 ≤ a.length) :
    ∀ m, m ≤ len / 2 →
      ((List.range m).foldl (AudioProcessor.butterflyStep len i wl) (a, 1)).2 =
        wl ^ m ∧
      (((List.range m).foldl (AudioProcessor.butterflyStep len i wl)
        (a, 1)).1).length = a.length ∧
      ∀ p, ((List.range m).foldl (AudioProcessor.butterflyStep len i wl)
          (a, 1)).1.getD p 0 =
        if i ≤ p ∧ p < i + m then
          a.getD p 0 + a.getD (p + len / 2) 0 * wl ^ (p - i)
        else if i + len / 2 ≤ p ∧ p < i + len / 2 + m then
          a.getD (p - len / 2) 0 - a.getD p 0 * wl ^ (p - (i + len / 2))
        else a.getD p 0 := by
  intro m
  induction m with
  | zero =>
    intro _
    refine ⟨by simp, rfl, ?_⟩
    intro p
    rw [if_neg (by omega), if_neg (by omega)]
    simp
  | succ m ih =>
    intro hm1
    have hhalf : 0 < len / 2 := by omega
    obtain ⟨hw, hlen, harr⟩ := ih (by omega)
    rw [foldl_range_succ]
    set st := (List.range m).foldl (AudioProcessor.butterflyStep len i wl) (a, 1)
      with hst
    have hu : st.1.getD (i + m) 0 = a.getD (i + m) 0 := by
      rw [harr (i + m), if_neg (by omega), if_neg (by omega)]
    have hv : st.1.getD (i + m + len / 2) 0 = a.getD (i + m + len / 2) 0 := by
      rw [harr (i + m + len / 2), if_neg (by omega), if_neg (by omega)]
    rw [AudioProcessor.butterflyStep]
    refine ⟨?_, ?_, ?_⟩
    · rw [hw, pow_succ]
    · simp [List.length_set, hlen]
    · intro p
      rcases eq_or_ne p (i + m) with rfl | hp1
      · rw [getD_set_self _ _ _ (by rw [List.length_set, hlen]; omega)]
        rw [hu, hv, hw]
        rw [if_pos (by omega)]
        rw [show i + m - i = m by omega]
      · rcases eq_or_ne p (i + m + len / 2) with rfl | hp2
        · rw [getD_set_ne _ _ _ _ (by omega),
            getD_set_self _ _ _ (by rw [hlen]; omega)]
          rw [hu, hv, hw]
          rw [if_neg (by omega), if_pos (by omega)]
          rw [show i + m + len / 2 - len / 2 = i + m by omega,
            show i + m + len / 2 - (i + len / 2) = m by omega]
        · rw [getD_set_ne _ _ _ _ (by omega), getD_set_ne _ _ _ _ (by omega),
            harr p]
          by_cases hc1 : i ≤ p ∧ p < i + m
          · rw [if_pos hc1, if_pos (by omega)]
          · rw [if_neg hc1]
            by_cases hc2 : i + len / 2 ≤ p ∧ p < i + len / 2 + m
            · rw [if_pos hc2, if_neg (by omega), if_pos (by omega)]
            · rw [if_neg hc2, if_neg (by omega), if_neg (by omega)]

theorem butterflyInner_getD (len i : ℕ) (wl : ℂ) (a : List ℂ)
    (hbound : i + len / 2 + len / 2 ≤ a.length) (p : ℕ) :
    (AudioProcessor.butterflyInner len i wl a).getD p 0 =
      if i ≤ p ∧ p < i + len / 2 then
        a.getD p 0 + a.getD (p + len / 2) 0 * wl ^ (p - i)
      else if i + len / 2 ≤ p ∧ p < i + len / 2 + len / 2 then
        a.getD (p - len / 2) 0 - a.getD p 0 * wl ^ (p - (i + len / 2))
      else a.getD p 0 := by
  rw [butterflyInner_eq_fold]
  exact (butterflyStep_fold_spec len i wl a hbound (len / 2) le_rfl).2.2 p

theorem ceil_div_of_dvd (n len : ℕ) (hlen : 0 < len) (h : len ∣ n) :
    (n + len - 1) / len = n / len := by
  obtain ⟨q, rfl⟩ := h
  rw [show len * q + len - 1 = len - 1 + len * q by omega,
    Nat.add_mul_div_left _ _ hlen, Nat.div_eq_of_lt (by omega),
    Nat.mul_div_cancel_left _ hlen]
  omega

theorem stageBlocks_fold_spec (L : ℕ) (hL : 0 < L) (wl : ℂ) (a : List ℂ) (n : ℕ)
    (ha : a.length = n) (hdvd : 2 * L ∣ n) :
    ∀ m, m ≤ n / (2 * L) →
      (((List.range m).foldl (fun arr q =>
          AudioProcessor.butterflyInner (2 * L) (q * (2 * L)) wl arr) a).length = n) ∧
      ∀ p, p < n →
        ((List.range m).foldl (fun arr q =>
            AudioProcessor.butterflyInner (2 * L) (q * (2 * L)) wl arr) a).getD p 0 =
          if p < m * (2 * L) then
            (if p % (2 * L) < L then
              a.getD p 0 + a.getD (p + L) 0 * wl ^ (p % (2 * L))
            else
              a.getD (p - L) 0 - a.getD p 0 * wl ^ (p % (2 * L) - L))
          else a.getD p 0 := by
  have h2L : 0 < 2 * L := by omega
  have hhalf : 2 * L / 2 = L := by omega
  obtain ⟨k, hk⟩ := hdvd
  have hkdiv : n / (2 * L) = k := by rw [hk, Nat.mul_div_cancel_left _ h2L]
  intro m
  induction m with
  | zero =>
    intro _
    refine ⟨ha, ?_⟩
    intro p hp
    rw [if_neg (by omega)]
    rfl
  | succ m ih =>
    intro hm1
    obtain ⟨hlen, harr⟩ := ih (by omega)
    rw [foldl_range_succ]
    set st := (List.range m).foldl (fun arr q =>
      AudioProcessor.butterflyInner (2 * L) (q * (2 * L)) wl arr) a with hst
    have hmn : m * (2 * L) + 2 * L ≤ n := by
      rw [hk]
      calc m * (2 * L) + 2 * L = (m + 1) * (2 * L) := by ring
        _ ≤ k * (2 * L) := Nat.mul_le_mul_right _ (by omega)
        _ = 2 * L * k := by ring
    have hbound : m * (2 * L) + (2 * L) / 2 + (2 * L) / 2 ≤ st.length := by
      rw [hlen, hhalf]
      omega
    constructor
    · rw [butterflyInner_length]
      exact hlen
    · intro p hp
      rw [butterflyInner_getD _ _ _ _ hbound p, hhalf]
      have hcomm : 2 * L * m = m * (2 * L) := by ring
      have hsucc : (m + 1) * (2 * L) = m * (2 * L) + 2 * L := by ring
      by_cases hc1 : m * (2 * L) ≤ p ∧ p < m * (2 * L) + L
      · have hp_eq : p = 2 * L * m + (p - m * (2 * L)) := by rw [hcomm]; omega
        have hmod : p % (2 * L) = p - m * (2 * L) := by
          conv_lhs => rw [hp_eq]
          rw [Nat.mul_add_mod, Nat.mod_eq_of_lt (by omega)]
        rw [if_pos hc1]
        rw [harr p hp, if_neg (show ¬(p < m * (2 * L)) by omega)]
        rw [harr (p + L) (show p + L < n by omega),
          if_neg (show ¬(p + L < m * (2 * L)) by omega)]
        rw [if_pos (show p < (m + 1) * (2 * L) by omega),
          if_pos (show p % (2 * L) < L by omega), hmod]
      · rw [if_neg hc1]
        by_cases hc2 : m * (2 * L) + L ≤ p ∧ p < m * (2 * L) + L + L
        · have hp_eq : p = 2 * L * m + (p - m * (2 * L)) := by rw [hcomm]; omega
          have hmod : p % (2 * L) = p - m * (2 * L) := by
            conv_lhs => rw [hp_eq]
            rw [Nat.mul_add_mod, Nat.mod_eq_of_lt (by omega)]
          rw [if_pos hc2]
          rw [harr p hp, if_neg (show ¬(p < m * (2 * L)) by omega)]
          rw [harr (p - L) (show p - L < n by omega),
            if_neg (show ¬(p - L < m * (2 * L)) by omega)]
          rw [if_pos (show p < (m + 1) * (2 * L) by omega),
            if_neg (show ¬(p % (2 * L) < L) by omega), hmod,
            show p - (m * (2 * L) + L) = p - m * (2 * L) - L by omega]
        · rw [if_neg hc2, harr p hp]
          by_cases hc3 : p < m * (2 * L)
          · rw [if_pos hc3, if_pos (show p < (m + 1) * (2 * L) by omega)]
          · rw [if_neg hc3, if_neg (show ¬(p < (m + 1) * (2 * L)) by omega)]

theorem stageFold_length (n len : ℕ) (wl : ℂ) (a : List ℂ) :
    (AudioProcessor.stageFold n len wl a).length = a.length := by
  rw [AudioProcessor.stageFold]
  generalize List.range ((n + len - 1) / len) = l
  induction l generalizing a with
  | nil => rfl
  | cons x xs ih =>
    rw [List.foldl_cons, ih, butterflyInner_length]

theorem stageFold_getD (L : ℕ) (hL : 0 < L) (wl : ℂ) (a : List ℂ) (n : ℕ)
    (ha : a.length = n) (hdvd : 2 * L ∣ n) (p : ℕ) (hp : p < n) :
    (AudioProcessor.stageFold n (2 * L) wl a).getD p 0 =
      if p % (2 * L) < L then
        a.getD p 0 + a.getD (p + L) 0 * wl ^ (p % (2 * L))
      else a.getD (p - L) 0 - a.getD p 0 * wl ^ (p % (2 * L) - L) := by
  rw [AudioProcessor.stageFold, ceil_div_of_dvd n (2 * L) (by omega) hdvd]
  have h := (stageBlocks_fold_spec L hL wl a n ha hdvd (n / (2 * L)) le_rfl).2 p hp
  rw [h, if_pos (by rw [Nat.div_mul_cancel hdvd]; exact hp)]

/-! #### Root-of-unity algebra -/

theorem stageW_eq_dftRoot (len : ℕ) :
    AudioProcessor.stageW len = AudioProcessor.dftRoot len := by
  rw [AudioProcessor.stageW, AudioProcessor.dftRoot]
  have h : (-(2 * Real.pi * Complex.I) / (len : ℂ)) =
      ((-2 * Real.pi / (len : ℝ) : ℝ) : ℂ) * Complex.I := by
    push_cast
    by_cases hlen : (len : ℂ) = 0
    · rw [hlen]
      simp
    · field_simp
  rw [h]
  apply Complex.ext
  · rw [Complex.exp_ofReal_mul_I_re]
  · rw [Complex.exp_ofReal_mul_I_im]

theorem dftRoot_pow_self (L : ℕ) (hL : 0 < L) :
    AudioProcessor.dftRoot L ^ L = 1 := by
  have hne : (L : ℂ) ≠ 0 := by
    simp only [ne_eq, Nat.cast_eq_zero]
    omega
  rw [AudioProcessor.dftRoot, ← Complex.exp_nat_mul]
  rw [show (L : ℂ) * (-(2 * Real.pi * Complex.I) / (L : ℂ)) =
      -(2 * Real.pi * Complex.I) by
    rw [mul_comm, div_mul_cancel₀ _ hne]]
  rw [Complex.exp_neg, Complex.exp_two_pi_mul_I, inv_one]

theorem dftRoot_sq (L : ℕ) (hL : 0 < L) :
    AudioProcessor.dftRoot (2 * L) ^ 2 = AudioProcessor.dftRoot L := by
  rw [AudioProcessor.dftRoot, AudioProcessor.dftRoot, ← Complex.exp_nat_mul]
  congr 1
  have hL2 : ((2 * L : ℕ) : ℂ) = 2 * (L : ℂ) := by push_cast; ring
  rw [hL2]
  have hne : (L : ℂ) ≠ 0 := by
    simp only [ne_eq, Nat.cast_eq_zero]
    omega
  field_simp
  ring

theorem dftRoot_two_mul_pow_half (L : ℕ) (hL : 0 < L) :
    AudioProcessor.dftRoot (2 * L) ^ L = -1 := by
  rw [AudioProcessor.dftRoot, ← Complex.exp_nat_mul]
  have hne : (L : ℂ) ≠ 0 := by
    simp only [ne_eq, Nat.cast_eq_zero]
    omega
  rw [show (L : ℂ) * (-(2 * Real.pi * Complex.I) / ((2 * L : ℕ) : ℂ)) =
      -((Real.pi : ℂ) * Complex.I) by
    push_cast
    field_simp
    ring]
  rw [Complex.exp_neg, Complex.exp_pi_mul_I]
  norm_num

theorem sum_range_even_odd (f : ℕ → ℂ) (N : ℕ) :
    ∑ m ∈ Finset.range (2 * N), f m =
      (∑ r ∈ Finset.range N, f (2 * r)) + ∑ r ∈ Finset.range N, f (2 * r + 1) := by
  induction N with
  | zero => simp
  | succ N ih =>
    rw [show 2 * (N + 1) = 2 * N + 1 + 1 by ring, Finset.sum_range_succ,
      Finset.sum_range_succ, Finset.sum_range_succ, Finset.sum_range_succ, ih]
    ring

theorem dft_combine (L : ℕ) (hL : 0 < L) (f : ℕ → ℂ) (t : ℕ) :
    ∑ m ∈ Finset.range (2 * L), f m * AudioProcessor.dftRoot (2 * L) ^ (m * t) =
      if t < L then
        (∑ r ∈ Finset.range L, f (2 * r) * AudioProcessor.dftRoot L ^ (r * t)) +
          (∑ r ∈ Finset.range L, f (2 * r + 1) * AudioProcessor.dftRoot L ^ (r * t)) *
            AudioProcessor.dftRoot (2 * L) ^ t
      else
        (∑ r ∈ Finset.range L, f (2 * r) * AudioProcessor.dftRoot L ^ (r * (t - L))) -
          (∑ r ∈ Finset.range L, f (2 * r + 1) *
              AudioProcessor.dftRoot L ^ (r * (t - L))) *
            AudioProcessor.dftRoot (2 * L) ^ (t - L) := by
  rw [sum_range_even_odd (fun m => f m * AudioProcessor.dftRoot (2 * L) ^ (m * t)) L]
  by_cases ht : t < L
  · rw [if_pos ht]
    congr 1
    · apply Finset.sum_congr rfl
      intro r _
      congr 1
      rw [show 2 * r * t = 2 * (r * t) by ring, pow_mul, dftRoot_sq L hL]
    · rw [Finset.sum_mul]
      apply Finset.sum_congr rfl
      intro r _
      rw [show (2 * r + 1) * t = 2 * (r * t) + t by ring, pow_add, pow_mul,
        dftRoot_sq L hL]
      ring
  · rw [if_neg ht]
    have hts : t = (t - L) + L := by omega
    have hpowL : ∀ r : ℕ, AudioProcessor.dftRoot L ^ (r * t) =
        AudioProcessor.dftRoot L ^ (r * (t - L)) := by
      intro r
      conv_lhs => rw [hts]
      rw [show r * (t - L + L) = r * (t - L) + L * r by ring, pow_add,
        pow_mul (AudioProcessor.dftRoot L) L r, dftRoot_pow_self L hL, one_pow,
        mul_one]
    rw [sub_eq_add_neg]
    congr 1
    · apply Finset.sum_congr rfl
      intro r _
      congr 1
      rw [show 2 * r * t = 2 * (r * t) by ring, pow_mul, dftRoot_sq L hL, hpowL r]
    · have hw : AudioProcessor.dftRoot (2 * L) ^ t =
          -(AudioProcessor.dftRoot (2 * L) ^ (t - L)) := by
        conv_lhs => rw [hts]
        rw [pow_add, dftRoot_two_mul_pow_half L hL]
        ring
      rw [Finset.sum_mul, ← Finset.sum_neg_distrib]
      apply Finset.sum_congr rfl
      intro r _
      rw [show (2 * r + 1) * t = 2 * (r * t) + t by ring, pow_add, pow_mul,
        dftRoot_sq L hL, hpowL r, hw]
      ring

theorem bitRev_two_mul (M b : ℕ) :
    AudioProcessor.bitRev (M + 1) (2 * b) = AudioProcessor.bitRev M b := by
  rw [AudioProcessor.bitRev, Nat.mul_mod_right, show 2 * b / 2 = b by omega,
    zero_mul, zero_add]

theorem bitRev_two_mul_add_one (M b : ℕ) :
    AudioProcessor.bitRev (M + 1) (2 * b + 1) =
      2 ^ M + AudioProcessor.bitRev M b := by
  rw [AudioProcessor.bitRev, show (2 * b + 1) % 2 = 1 by omega,
    show (2 * b + 1) / 2 = b by omega, one_mul]

theorem fft_stage_inv (orig : List ℂ) (K : ℕ) (horig : orig.length = 2 ^ K) :
    ∀ L, L ≤ K →
      (((List.range L).foldl (fun arr s =>
          AudioProcessor.stageFold (2 ^ K) (2 ^ (s + 1))
            (AudioProcessor.stageW (2 ^ (s + 1))) arr)
          (AudioProcessor.bitReverse orig)).length = 2 ^ K) ∧
      ∀ b t, b < 2 ^ (K - L) → t < 2 ^ L →
        ((List.range L).foldl (fun arr s =>
            AudioProcessor.stageFold (2 ^ K) (2 ^ (s + 1))
              (AudioProcessor.stageW (2 ^ (s + 1))) arr)
            (AudioProcessor.bitReverse orig)).getD (b * 2 ^ L + t) 0 =
          ∑ m ∈ Finset.range (2 ^ L),
            orig.getD (m * 2 ^ (K - L) + AudioProcessor.bitRev (K - L) b) 0 *
              AudioProcessor.dftRoot (2 ^ L) ^ (m * t) := by
  intro L
  induction L with
  | zero =>
    intro _
    rw [List.range_zero, List.foldl_nil]
    refine ⟨bitReverse_length orig K horig, ?_⟩
    intro b t hb ht
    have ht0 : t = 0 := by omega
    subst ht0
    rw [show b * 2 ^ 0 + 0 = b from by ring]
    rw [bitReverse_getD orig K horig b (by simpa using hb)]
    rw [pow_zero, Finset.sum_range_one]
    simp
  | succ L ih =>
    intro hL1
    obtain ⟨hlen, harr⟩ := ih (by omega)
    rw [foldl_range_succ]
    set st := (List.range L).foldl (fun arr s =>
      AudioProcessor.stageFold (2 ^ K) (2 ^ (s + 1))
        (AudioProcessor.stageW (2 ^ (s + 1))) arr)
      (AudioProcessor.bitReverse orig) with hst
    have hA : 0 < 2 ^ L := Nat.pos_pow_of_pos L (by omega)
    have h2L : 2 ^ (L + 1) = 2 * 2 ^ L := by rw [pow_succ]; ring
    have hdvd : 2 * 2 ^ L ∣ 2 ^ K := by
      rw [← h2L]
      exact pow_dvd_pow 2 hL1
    have hKL : 2 ^ (K - L) = 2 * 2 ^ (K - L - 1) := by
      rw [← pow_succ']
      congr 1
      omega
    have h3 : 2 ^ K = 2 ^ (K - L - 1) * (2 * 2 ^ L) := by
      rw [← h2L, ← pow_add]
      congr 1
      omega
    constructor
    · rw [stageFold_length]
      exact hlen
    · intro b t hb ht
      rw [show K - (L + 1) = K - L - 1 by omega] at hb ⊢
      rw [h2L] at ht ⊢
      have hprod1 : (b + 1) * (2 * 2 ^ L) = b * (2 * 2 ^ L) + 2 * 2 ^ L := by ring
      have hble : (b + 1) * (2 * 2 ^ L) ≤ 2 ^ (K - L - 1) * (2 * 2 ^ L) :=
        Nat.mul_le_mul_right _ (by omega)
      have hp : b * (2 * 2 ^ L) + t < 2 ^ K := by omega
      rw [stageW_eq_dftRoot,
        stageFold_getD (2 ^ L) hA _ st (2 ^ K) hlen hdvd _ hp]
      have hmod : (b * (2 * 2 ^ L) + t) % (2 * 2 ^ L) = t := by
        rw [show b * (2 * 2 ^ L) + t = 2 * 2 ^ L * b + t by ring,
          Nat.mul_add_mod, Nat.mod_eq_of_lt ht]
      rw [hmod]
      have hcombine := dft_combine (2 ^ L) hA
        (fun m => orig.getD (m * 2 ^ (K - L - 1) +
          AudioProcessor.bitRev (K - L - 1) b) 0) t
      simp only [] at hcombine
      rw [hcombine]
      have hbrev_even : AudioProcessor.bitRev (K - L) (2 * b) =
          AudioProcessor.bitRev (K - L - 1) b := by
        have h := bitRev_two_mul (K - L - 1) b
        rwa [show K - L - 1 + 1 = K - L by omega] at h
      have hbrev_odd : AudioProcessor.bitRev (K - L) (2 * b + 1) =
          2 ^ (K - L - 1) + AudioProcessor.bitRev (K - L - 1) b := by
        have h := bitRev_two_mul_add_one (K - L - 1) b
        rwa [show K - L - 1 + 1 = K - L by omega] at h
      have hsum_even : ∀ u : ℕ,
          (∑ m ∈ Finset.range (2 ^ L),
            orig.getD (m * 2 ^ (K - L) + AudioProcessor.bitRev (K - L) (2 * b)) 0 *
              AudioProcessor.dftRoot (2 ^ L) ^ (m * u)) =
          ∑ r ∈ Finset.range (2 ^ L),
            orig.getD (2 * r * 2 ^ (K - L - 1) +
              AudioProcessor.bitRev (K - L - 1) b) 0 *
              AudioProcessor.dftRoot (2 ^ L) ^ (r * u) := by
        intro u
        apply Finset.sum_congr rfl
        intro r _
        rw [hbrev_even, show r * 2 ^ (K - L) = 2 * r * 2 ^ (K - L - 1) by
          rw [hKL]; ring]
      have hsum_odd : ∀ u : ℕ,
          (∑ m ∈ Finset.range (2 ^ L),
            orig.getD (m * 2 ^ (K - L) +
              AudioProcessor.bitRev (K - L) (2 * b + 1)) 0 *
              AudioProcessor.dftRoot (2 ^ L) ^ (m * u)) =
          ∑ r ∈ Finset.range (2 ^ L),
            orig.getD ((2 * r + 1) * 2 ^ (K - L - 1) +
              AudioProcessor.bitRev (K - L - 1) b) 0 *
              AudioProcessor.dftRoot (2 ^ L) ^ (r * u) := by
        intro u
        apply Finset.sum_congr rfl
        intro r _
        rw [hbrev_odd, show r * 2 ^ (K - L) + (2 ^ (K - L - 1) +
            AudioProcessor.bitRev (K - L - 1) b) =
          (2 * r + 1) * 2 ^ (K - L - 1) +
            AudioProcessor.bitRev (K - L - 1) b by rw [hKL]; ring]
      have hb2 : 2 * b < 2 ^ (K - L) := by omega
      have hb21 : 2 * b + 1 < 2 ^ (K - L) := by omega
      by_cases htL : t < 2 ^ L
      · rw [if_pos htL]
        rw [show b * (2 * 2 ^ L) + t = 2 * b * 2 ^ L + t by ring]
        rw [harr (2 * b) t hb2 htL]
        rw [show 2 * b * 2 ^ L + t + 2 ^ L = (2 * b + 1) * 2 ^ L + t by ring]
        rw [harr (2 * b + 1) t hb21 htL]
        rw [hsum_even t, hsum_odd t]
        rw [if_pos htL]
      · rw [if_neg htL]
        have htub : t - 2 ^ L < 2 ^ L := by omega
        rw [show b * (2 * 2 ^ L) + t - 2 ^ L = 2 * b * 2 ^ L + (t - 2 ^ L) by
          have : b * (2 * 2 ^ L) = 2 * b * 2 ^ L := by ring
          omega]
        rw [harr (2 * b) (t - 2 ^ L) hb2 htub]
        rw [show b * (2 * 2 ^ L) + t = (2 * b + 1) * 2 ^ L + (t - 2 ^ L) by
          have h1 : b * (2 * 2 ^ L) = 2 * b * 2 ^ L := by ring
          have h2 : (2 * b + 1) * 2 ^ L = 2 * b * 2 ^ L + 2 ^ L := by ring
          omega]
        rw [harr (2 * b + 1) (t - 2 ^ L) hb21 htub]
        rw [hsum_even (t - 2 ^ L), hsum_odd (t - 2 ^ L)]
        rw [if_neg htL]

theorem dft_length (a : List ℂ) : (AudioProcessor.dft a).length = a.length := by
  rw [AudioProcessor.dft, List.length_map, List.length_range]

theorem fft_dft (a : List ℂ) (K : ℕ) (ha : a.length = 2 ^ K) :
    AudioProcessor.fft a = AudioProcessor.dft a := by
  rcases Nat.eq_zero_or_pos K with hK | hK
  · subst hK
    rw [AudioProcessor.fft]
    simp only [ha]
    rw [if_pos (by norm_num)]
    rw [AudioProcessor.dft, ha]
    conv_lhs => rw [eq_singleton_getD a 0 (by simp [ha])]
    rw [show List.range (2 ^ 0) = [0] from rfl]
    simp [Finset.sum_range_one]
  · rw [AudioProcessor.fft]
    simp only [ha]
    rw [if_neg (by
      have : 2 ^ 1 ≤ 2 ^ K := Nat.pow_le_pow_right (by norm_num) hK
      omega)]
    rw [Nat.log_pow (by norm_num)]
    obtain ⟨hlen, harr⟩ := fft_stage_inv a K ha K (le_refl K)
    apply List.ext_getElem
    · rw [hlen, dft_length, ha]
    · intro i h1 h2
      rw [← List.getD_eq_getElem _ 0 h1, ← List.getD_eq_getElem _ 0 h2]
      have hi : i < 2 ^ K := by rwa [hlen] at h1
      have h0 : (0 : ℕ) < 2 ^ (K - K) := by simp
      have := harr 0 i h0 hi
      rw [zero_mul, zero_add] at this
      rw [this]
      rw [AudioProcessor.dft, ha, getD_map_range, if_pos hi]
      apply Finset.sum_congr rfl
      intro m _
      rw [show K - K = 0 from by omega, AudioProcessor.bitRev]
      rw [pow_zero, mul_one, add_zero]

theorem dftRoot_pow_eq_one_iff (n : ℕ) (hn : 0 < n) (d : ℕ) :
    AudioProcessor.dftRoot n ^ d = 1 ↔ n ∣ d := by
  have hprim : IsPrimitiveRoot (Complex.exp (2 * Real.pi * Complex.I / n)) n :=
    Complex.isPrimitiveRoot_exp n (by omega)
  have hinv : AudioProcessor.dftRoot n =
      (Complex.exp (2 * Real.pi * Complex.I / n))⁻¹ := by
    rw [AudioProcessor.dftRoot, ← Complex.exp_neg, neg_div]
  have hprim2 : IsPrimitiveRoot (AudioProcessor.dftRoot n) n := by
    rw [hinv]
    exact hprim.inv
  exact hprim2.pow_eq_one_iff_dvd d

theorem dftRoot_orthogonal (n : ℕ) (hn : 0 < n) (d : ℕ) :
    ∑ j ∈ Finset.range n, AudioProcessor.dftRoot n ^ (j * d) =
      if n ∣ d then (n : ℂ) else 0 := by
  have hpow : ∀ j ∈ Finset.range n, AudioProcessor.dftRoot n ^ (j * d) =
      (AudioProcessor.dftRoot n ^ d) ^ j := by
    intro j _
    rw [← pow_mul, mul_comm]
  rw [Finset.sum_congr rfl hpow]
  by_cases hdvd : n ∣ d
  · rw [if_pos hdvd, (dftRoot_pow_eq_one_iff n hn d).mpr hdvd]
    simp
  · rw [if_neg hdvd]
    have hne : AudioProcessor.dftRoot n ^ d ≠ 1 := fun h =>
      hdvd ((dftRoot_pow_eq_one_iff n hn d).mp h)
    rw [geom_sum_eq hne, ← pow_mul, mul_comm d n, pow_mul,
      dftRoot_pow_self n hn, one_pow]
    simp

theorem dftRoot_conj (n : ℕ) (hn : 0 < n) :
    (starRingEnd ℂ) (AudioProcessor.dftRoot n) =
      AudioProcessor.dftRoot n ^ (n - 1) := by
  have h1 : (starRingEnd ℂ) (AudioProcessor.dftRoot n) *
      AudioProcessor.dftRoot n = 1 := by
    rw [AudioProcessor.dftRoot, ← Complex.exp_conj, ← Complex.exp_add]
    rw [show (starRingEnd ℂ) (-(2 * (Real.pi : ℂ) * Complex.I) / (n : ℂ)) +
        -(2 * (Real.pi : ℂ) * Complex.I) / (n : ℂ) = 0 from by
      rw [map_div₀, map_neg, map_mul, map_mul, Complex.conj_I,
        Complex.conj_ofReal, map_ofNat, map_natCast]
      ring]
    exact Complex.exp_zero
  have h2 : AudioProcessor.dftRoot n ^ (n - 1) * AudioProcessor.dftRoot n = 1 := by
    rw [← pow_succ, show n - 1 + 1 = n from by omega, dftRoot_pow_self n hn]
  have hω0 : AudioProcessor.dftRoot n ≠ 0 := by
    intro h
    rw [h, mul_zero] at h1
    exact one_ne_zero h1.symm
  exact mul_right_cancel₀ hω0 (h1.trans h2.symm)

theorem dft_index_dvd_iff (n m k : ℕ) (hm : m < n) (hk : k < n) :
    (n ∣ m + (n - 1) * k) ↔ m = k := by
  obtain ⟨q, rfl⟩ : ∃ q, n = q + 1 := ⟨n - 1, by omega⟩
  rw [show q + 1 - 1 = q from rfl]
  constructor
  · intro hd
    have h1 : ((q : ℤ) + 1) ∣ ((m : ℤ) + q * k) := by
      exact_mod_cast hd
    have h3 : ((q : ℤ) + 1) ∣ ((q : ℤ) + 1) * k := dvd_mul_right _ _
    have hd2 : ((q : ℤ) + 1) ∣ (m : ℤ) - k := by
      rw [show (m : ℤ) - k = ((m : ℤ) + q * k) - ((q : ℤ) + 1) * k from by ring]
      exact dvd_sub h1 h3
    have habs : |(m : ℤ) - (k : ℤ)| < (q : ℤ) + 1 := by
      rw [abs_lt]
      omega
    have := Int.eq_zero_of_abs_lt_dvd hd2 habs
    omega
  · intro h
    refine ⟨k, ?_⟩
    rw [h]
    ring

theorem ifft_fft (a : List ℂ) (K : ℕ) (ha : a.length = 2 ^ K) :
    AudioProcessor.ifft (AudioProcessor.fft a) = a := by
  have hn : 0 < 2 ^ K := Nat.pos_pow_of_pos K (by norm_num)
  have hfa : AudioProcessor.fft a = AudioProcessor.dft a := fft_dft a K ha
  have hlen1 : (AudioProcessor.dft a).length = 2 ^ K := by rw [dft_length, ha]
  have hlen2 : ((AudioProcessor.dft a).map (starRingEnd ℂ)).length = 2 ^ K := by
    rw [List.length_map, hlen1]
  have hinner : ((AudioProcessor.dft a).map (starRingEnd ℂ)) =
      (List.range (2 ^ K)).map fun j => (starRingEnd ℂ)
        (∑ m ∈ Finset.range (2 ^ K),
          a.getD m 0 * AudioProcessor.dftRoot (2 ^ K) ^ (m * j)) := by
    rw [AudioProcessor.dft, ha, List.map_map]
    rfl
  rw [AudioProcessor.ifft, hfa]
  rw [fft_dft _ K hlen2]
  rw [hlen1]
  apply List.ext_getElem
  · rw [List.length_map, dft_length, hlen2, ha]
  · intro k h1 h2
    have hk : k < 2 ^ K := by rwa [ha] at h2
    rw [← List.getD_eq_getElem _ 0 h1, ← List.getD_eq_getElem _ 0 h2]
    rw [AudioProcessor.dft, hlen2]
    rw [List.map_map, getD_map_range, if_pos hk]
    simp only [Function.comp_apply]
    have hcget : ∀ j ∈ Finset.range (2 ^ K),
        ((AudioProcessor.dft a).map (starRingEnd ℂ)).getD j 0 *
          AudioProcessor.dftRoot (2 ^ K) ^ (j * k) =
        (∑ m ∈ Finset.range (2 ^ K), (starRingEnd ℂ)
          (a.getD m 0 * AudioProcessor.dftRoot (2 ^ K) ^ (m * j))) *
          AudioProcessor.dftRoot (2 ^ K) ^ (j * k) := by
      intro j hj
      rw [hinner, getD_map_range, if_pos (Finset.mem_range.mp hj), map_sum]
    rw [Finset.sum_congr rfl hcget]
    rw [map_sum]
    have hterm : ∀ j ∈ Finset.range (2 ^ K),
        (starRingEnd ℂ) ((∑ m ∈ Finset.range (2 ^ K), (starRingEnd ℂ)
          (a.getD m 0 * AudioProcessor.dftRoot (2 ^ K) ^ (m * j))) *
          AudioProcessor.dftRoot (2 ^ K) ^ (j * k)) =
        ∑ m ∈ Finset.range (2 ^ K),
          a.getD m 0 * AudioProcessor.dftRoot (2 ^ K) ^
            (j * (m + (2 ^ K - 1) * k)) := by
      intro j _
      rw [map_mul, map_sum, Finset.sum_mul]
      apply Finset.sum_congr rfl
      intro m _
      rw [Complex.conj_conj]
      rw [map_pow, dftRoot_conj (2 ^ K) hn, ← pow_mul]
      rw [mul_assoc, ← pow_add,
        show m * j + (2 ^ K - 1) * (j * k) = j * (m + (2 ^ K - 1) * k) from by
          ring]
    rw [Finset.sum_congr rfl hterm]
    rw [Finset.sum_comm]
    have hswap : ∀ m ∈ Finset.range (2 ^ K),
        (∑ j ∈ Finset.range (2 ^ K),
          a.getD m 0 * AudioProcessor.dftRoot (2 ^ K) ^
            (j * (m + (2 ^ K - 1) * k))) =
        a.getD m 0 * (if (2 ^ K) ∣ (m + (2 ^ K - 1) * k)
          then ((2 ^ K : ℕ) : ℂ) else 0) := by
      intro m _
      rw [← Finset.mul_sum, dftRoot_orthogonal (2 ^ K) hn]
    rw [Finset.sum_congr rfl hswap]
    have hsel : ∀ m ∈ Finset.range (2 ^ K),
        a.getD m 0 * (if (2 ^ K) ∣ (m + (2 ^ K - 1) * k)
          then ((2 ^ K : ℕ) : ℂ) else 0) =
        if m = k then a.getD m 0 * ((2 ^ K : ℕ) : ℂ) else 0 := by
      intro m hm
      rw [if_congr (dft_index_dvd_iff (2 ^ K) m k
        (Finset.mem_range.mp hm) hk) rfl rfl]
      rw [mul_ite, mul_zero]
    rw [Finset.sum_congr rfl hsel]
    rw [Finset.sum_ite_eq' (Finset.range (2 ^ K)) k
      (fun m => a.getD m 0 * ((2 ^ K : ℕ) : ℂ))]
    rw [if_pos (Finset.mem_range.mpr hk)]
    have hne : ((2 ^ K : ℕ) : ℂ) ≠ 0 := Nat.cast_ne_zero.mpr (by omega)
    rw [mul_div_cancel_right₀ _ hne]

/-- C1: For every power-of-two length `N = 2^K` and every real-valued input
`x` of length `N` (imaginary part zero), running the forward transform `fft`
followed by the inverse transform `ifft` (implemented as: conjugate input,
run forward, conjugate and scale by `1/N`) returns `x` — exactly, in the
idealized real-arithmetic model, which is the exact counterpart of recovery
within floating-point tolerance. -/
theorem fft_roundtrip (x : List ℝ) (K : ℕ) (hx : x.length = 2 ^ K) :
    AudioProcessor.ifft (AudioProcessor.fft (x.map fun t : ℝ => (t : ℂ))) =
      x.map (fun t : ℝ => (t : ℂ)) := by
  apply ifft_fft
  rw [List.length_map, hx]

theorem fft_roundtrip_witness :
    ([(1 : ℝ), 0].length = 2 ^ 1) ∧
      AudioProcessor.ifft (AudioProcessor.fft
        ([(1 : ℝ), 0].map fun t : ℝ => (t : ℂ))) =
        [(1 : ℝ), 0].map (fun t : ℝ => (t : ℂ)) :=
  ⟨rfl, fft_roundtrip [1, 0] 1 rfl⟩
